import Mathlib

/-!
Shallow embedding of the beast aged associative containers
(`src/beast/beast/container/detail/aged_ordered_container.h` and
`src/beast/beast/container/detail/aged_unordered_container.h`).

Every stored element lives in one heap node that carries the user value,
a `when` time point, and the intrusive hooks for both indices.  A node is
modelled by its allocation identity `id` (the heap pointer) together with
its value; the user value of a node is never mutated by the operations
modelled here, while the `when` field is mutated in place by `touch`, so
`when` is kept in a separate map `whens : Nat -> Nat` indexed by node id.
That way the sharing of one node between the associative index and the
temporal list is represented faithfully.

The associative index of the ordered container is modelled by the
in-order traversal sequence of the intrusive tree; the hash container by
its bucket vector (each bucket the sequence of nodes linked in it, whose
concatenation is the container's iteration order).  The temporal list is
the list of nodes, oldest first.  Each operation receives the value that
`clock().now()` returns during it as a `now : Nat` argument; time points
are naturals.

Reads of invalid iterators (in particular the successor read past
`end()` performed by `erase(key)`) are modelled by returning `none`.
-/

set_option maxRecDepth 10000
set_option linter.unusedSectionVars false

namespace BeastAged

/-- A heap node of the container, identified by its allocation identity
(`id`, standing for the node's address) and carrying the stored value.
The mutable `when` field lives in the container's `whens` map. -/
structure Elem (V : Type) where
  id : Nat
  value : V
deriving DecidableEq

/-- Equivalence of two keys under a comparator, as used by the tree
probes: neither is less than the other. -/
def equivK (lt : K → K → Bool) (a b : K) : Bool :=
  !lt a b && !lt b a

/-- In-order effect of linking a fresh node into the tree immediately
before the first element whose key is greater than `k`.  This is the
position `insert_before (upper_bound k)` used by the multi insert, and
also the in-order position where `insert_commit` links a key that has no
equivalent in the tree (unique insert and `operator[]`). -/
def insertUB (lt : K → K → Bool) (keyOf : V → K) (k : K) (p : Elem V) :
    List (Elem V) → List (Elem V)
  | [] => [p]
  | x :: xs =>
      if lt k (keyOf x.value) then p :: x :: xs
      else x :: insertUB lt keyOf k p xs

/-- The loop of `erase(k)`: starting at the element `find` returned, it
repeatedly reads the successor, computes the `done` flag from the current
node and the successor (`m_config (*p, extract (iter->value))`), unlinks
the current node and stops when `done` holds.  When the loop reaches the
last element of the iteration sequence the successor is `end()` and the
code reads `extract(end()->value)`, an out-of-bounds read: modelled as
`none`.  Returns the removed nodes and the remaining suffix. -/
def eraseRun (done : Elem V → Elem V → Bool) :
    List (Elem V) → Option (List (Elem V) × List (Elem V))
  | [] => none
  | [_] => none
  | p :: q :: rest =>
      if done p q then some ([p], q :: rest)
      else
        match eraseRun done (q :: rest) with
        | some (rem, suf) => some (p :: rem, suf)
        | none => none

/-- Successive `list.erase (list.iterator_to (*p))` calls performed by
`unlink_and_delete_element` for each removed node. -/
def unlinkAllList (rem : List (Elem V)) (l : List (Elem V)) : List (Elem V) :=
  rem.foldl (fun acc p => acc.eraseP (fun e => e.id == p.id)) l

/-- Nodes for the values `vs`, allocated at consecutive identities
starting from `i`. -/
def tagFrom (i : Nat) : List V → List (Elem V)
  | [] => []
  | v :: vs => ⟨i, v⟩ :: tagFrom (i + 1) vs

/-- State of an `aged_ordered_container`: in-order traversal of the
intrusive tree (`cont`, mirroring `m_cont`), the temporal list oldest
first (`list`, mirroring `chronological.list`), the `when` field of each
node by id, and the next allocation identity. -/
structure AgedOrdered (V : Type) where
  cont : List (Elem V)
  list : List (Elem V)
  whens : Nat → Nat
  nextId : Nat

namespace AgedOrdered

/-- A default-constructed container: both indices empty. -/
def empty (V : Type) : AgedOrdered V := ⟨[], [], fun _ => 0, 0⟩

/-- `size()`: the constant-time size of the associative index. -/
def size (c : AgedOrdered V) : Nat := c.cont.length

/-- Writing `clock().now()` into the `when` field of the node `i`, as
`new_element` (at construction) and `touch` (in place) do. -/
def stamp (c : AgedOrdered V) (i now : Nat) : Nat → Nat :=
  fun j => if j = i then now else c.whens j

variable (lt : K → K → Bool) (keyOf : V → K)

/-- Unique-variant `insert(value)`: probe the tree with the value's key
(`insert_check`); if an equivalent key exists return the existing node
and `false` without allocating; otherwise allocate a node stamped
`clock().now()`, push it at the back of the temporal list and commit it
into the tree (`insert_commit`). -/
def insert_unique (v : V) (now : Nat) (c : AgedOrdered V) :
    AgedOrdered V × Bool × Elem V :=
  match c.cont.find? (fun e => equivK lt (keyOf v) (keyOf e.value)) with
  | some e => (c, false, e)
  | none =>
      let p : Elem V := ⟨c.nextId, v⟩
      (⟨insertUB lt keyOf (keyOf v) p c.cont,
        c.list ++ [p], c.stamp c.nextId now, c.nextId + 1⟩, true, p)

/-- Multi-variant `insert(value)`: allocate a node stamped
`clock().now()`, push it at the back of the temporal list, and link it in
the tree with `insert_before (upper_bound (key))`. -/
def insert_multi (v : V) (now : Nat) (c : AgedOrdered V) :
    AgedOrdered V × Elem V :=
  let p : Elem V := ⟨c.nextId, v⟩
  (⟨insertUB lt keyOf (keyOf v) p c.cont,
    c.list ++ [p], c.stamp c.nextId now, c.nextId + 1⟩, p)

/-- Unique-variant `emplace(args...)`: the node is constructed first,
then the tree is probed with the constructed value's key; on a collision
the fresh node is destroyed and deallocated again (`delete_element`), so
the observable state is unchanged and the existing node is returned with
`false`; otherwise the node is committed exactly as by `insert`. -/
def emplace_unique (v : V) (now : Nat) (c : AgedOrdered V) :
    AgedOrdered V × Bool × Elem V :=
  match c.cont.find? (fun e => equivK lt (keyOf v) (keyOf e.value)) with
  | some e => (c, false, e)
  | none =>
      let p : Elem V := ⟨c.nextId, v⟩
      (⟨insertUB lt keyOf (keyOf v) p c.cont,
        c.list ++ [p], c.stamp c.nextId now, c.nextId + 1⟩, true, p)

/-- Multi-variant `emplace(args...)`: the node is constructed first and
then linked at `upper_bound` of its key; there is no collision path. -/
def emplace_multi (v : V) (now : Nat) (c : AgedOrdered V) :
    AgedOrdered V × Elem V :=
  insert_multi lt keyOf v now c

/-- `operator[] (key)` on the unique map: probe with the key
(`insert_check`); on a miss allocate a node holding the pair of the key
and a default-constructed mapped value (`dflt`), stamped `clock().now()`,
push it at the back of the temporal list and commit it. -/
def opIndex (k : K) (dflt : V) (now : Nat) (c : AgedOrdered V) :
    AgedOrdered V × Elem V :=
  match c.cont.find? (fun e => equivK lt k (keyOf e.value)) with
  | some e => (c, e)
  | none =>
      let p : Elem V := ⟨c.nextId, dflt⟩
      (⟨insertUB lt keyOf k p c.cont,
        c.list ++ [p], c.stamp c.nextId now, c.nextId + 1⟩, p)

/-- `erase(pos)`: unlink the designated node (identified by its
allocation identity) from both indices and deallocate it
(`unlink_and_delete_element`).  A position that designates no live node
of this container is undefined behaviour (`none`). -/
def erase_iter (i : Nat) (c : AgedOrdered V) : Option (AgedOrdered V) :=
  match c.cont.find? (fun e => e.id == i) with
  | none => none
  | some _ =>
      some ⟨c.cont.eraseP (fun e => e.id == i),
            c.list.eraseP (fun e => e.id == i), c.whens, c.nextId⟩

/-- `erase(k)` on the ordered container: `find` the leftmost equivalent
node (0 removed when there is none), then run the removal loop whose
`done` flag is `compare (key(p), key(successor))`.  Returns the new state
and the count, or `none` when the loop dereferences `end()`. -/
def erase_key (k : K) (c : AgedOrdered V) : Option (AgedOrdered V × Nat) :=
  match c.cont.findIdx? (fun e => equivK lt k (keyOf e.value)) with
  | none => some (c, 0)
  | some i =>
      match eraseRun (fun p q => lt (keyOf p.value) (keyOf q.value))
          (c.cont.drop i) with
      | none => none
      | some (rem, suf) =>
          some (⟨c.cont.take i ++ suf, unlinkAllList rem c.list,
                 c.whens, c.nextId⟩, rem.length)

/-- `touch(pos)` on the node with identity `i`: write `clock().now()`
into its `when`, unlink it from the temporal list and push it at the
back.  The associative index is not touched.  An invalid position is
undefined behaviour (`none`). -/
def touch_iter (i : Nat) (now : Nat) (c : AgedOrdered V) :
    Option (AgedOrdered V) :=
  match c.list.find? (fun e => e.id == i) with
  | none => none
  | some e =>
      some ⟨c.cont, c.list.eraseP (fun x => x.id == i) ++ [e],
            c.stamp i now, c.nextId⟩

/-- `touch(k)`: read `clock().now()` once, then `touch` every node of
`equal_range(k)` (the run of nodes with keys equivalent to `k` in the
associative index), returning the count. -/
def touch_key (k : K) (now : Nat) (c : AgedOrdered V) :
    Option (AgedOrdered V × Nat) :=
  let range := c.cont.filter (fun e => equivK lt k (keyOf e.value))
  (range.foldlM (fun st e => touch_iter e.id now st) c).map
    (fun st => (st, range.length))

/-- `clear()`: deallocate every node walking the temporal list, then
clear both indices. -/
def clear (c : AgedOrdered V) : AgedOrdered V :=
  ⟨[], [], c.whens, c.nextId⟩

/-- Copy/move/initializer-list assignment of the unique variant: clear,
copy the configuration, then re-insert the source's values in its
associative order through hinted unique inserts. -/
def assign_unique (vs : List V) (now : Nat) (c : AgedOrdered V) :
    AgedOrdered V :=
  vs.foldl (fun st v => (insert_unique lt keyOf v now st).1) (clear c)

/-- Copy/move/initializer-list assignment of the multi variant. -/
def assign_multi (vs : List V) (now : Nat) (c : AgedOrdered V) :
    AgedOrdered V :=
  vs.foldl (fun st v => (insert_multi lt keyOf v now st).1) (clear c)

/-- Copy construction of the unique variant: copy the configuration
(sharing the clock), then insert the source's elements in associative
order; every node of the copy is created by `new_element`, which stamps
`clock().now()` observed during the copy, never the source's `when`. -/
def copyOf (src : AgedOrdered V) (now : Nat) : AgedOrdered V :=
  (src.cont.map (fun e => e.value)).foldl
    (fun st v => (insert_unique lt keyOf v now st).1) (empty V)

/-- `at(k)` on the unique map (value type `K × M`): `find` the key; when
absent, raise `out_of_range` (`Except.error`); otherwise return the
mapped component of the found node.  The container is not mutated on
either path, so the embedding is a pure function of the state. -/
def atKey (lt : K → K → Bool) (c : AgedOrdered (K × M)) (k : K) :
    Except Unit M :=
  match c.cont.find? (fun e => equivK lt k e.value.1) with
  | none => Except.error ()
  | some e => Except.ok e.value.2

/-- `operator==` of the ordered container: sizes must agree, then
`std::equal` over both associative traversals with the predicate
`eq (extract (lhs), extract (rhs))`, where `extract` projects the key of
a value (the whole value for sets, the first component for maps). -/
def contEq [DecidableEq K] (keyOf : V → K) (a b : AgedOrdered V) : Bool :=
  decide (size a = size b) &&
    ((a.cont.zip b.cont).all
      (fun pr => decide (keyOf pr.1.value = keyOf pr.2.value)))

end AgedOrdered

/-- The prime table of the intrusive hash table from which
`suggested_upper_bucket_count` picks bucket counts. -/
def primeList : List Nat :=
  [3, 7, 11, 17, 29, 53, 97, 193, 389, 769, 1543, 3079, 6151, 12289, 24593,
   49157, 98317, 196613, 393241, 786433, 1572869, 3145739, 6291469,
   12582917, 25165843, 50331653, 100663319, 201326611, 402653189,
   805306457, 1610612741, 3221225473, 4294967291]

/-- `suggested_upper_bucket_count(n)`: the smallest entry of the prime
table that is at least `n` (the last entry when `n` exceeds them all). -/
def suggested_upper_bucket_count (n : Nat) : Nat :=
  (primeList.find? (fun p => n ≤ p)).getD 4294967291

/-- State of an `aged_unordered_container`: the bucket vector of the
hash table (`buckets`, each bucket listing its linked nodes, so that the
container's iteration order is the concatenation of the buckets), the
temporal list oldest first, the `when` of each node by id, and the next
allocation identity.  The load factor limit is the default `1.0` (the
claims never change it); with it, `would_exceed` compares
`size + additional` against the bucket count exactly. -/
structure AgedUnordered (V : Type) where
  buckets : List (List (Elem V))
  list : List (Elem V)
  whens : Nat → Nat
  nextId : Nat

namespace AgedUnordered

/-- Iteration order of the hash container: buckets in order, each
bucket's nodes in link order. -/
def joinAll (c : AgedUnordered V) : List (Elem V) := c.buckets.flatten

/-- `size()` of the hash container. -/
def size (c : AgedUnordered V) : Nat := (joinAll c).length

/-- A default-constructed container: the `Buckets` constructor resizes
the bucket vector to `suggested_upper_bucket_count(0) = 3`. -/
def empty (V : Type) : AgedUnordered V :=
  ⟨List.replicate 3 [], [], fun _ => 0, 0⟩

/-- Writing `clock().now()` into the `when` field of node `i`. -/
def stamp (c : AgedUnordered V) (i now : Nat) : Nat → Nat :=
  fun j => if j = i then now else c.whens j

/-- The bucket index of a key: its hash modulo the bucket count. -/
def bucketIdxK (hashF : K → Nat) (count : Nat) (k : K) : Nat :=
  hashF k % count

/-- The bucket at index `i` (empty when out of range; all reachable
reads are in range). -/
def bucketGet (c : AgedUnordered V) (i : Nat) : List (Elem V) :=
  c.buckets.getD i []

/-- Linking a node into a bucket: next to the group of nodes with equal
keys when one exists (the intrusive hash table keeps equal keys
contiguous), at the bucket front otherwise.  Only the membership of the
node in its bucket is observable through the claims. -/
def bucketInsert (eqK : K → K → Bool) (keyOf : V → K) (p : Elem V)
    (b : List (Elem V)) : List (Elem V) :=
  match b.findIdx? (fun e => eqK (keyOf p.value) (keyOf e.value)) with
  | some i => b.take i ++ p :: b.drop i
  | none => p :: b

variable (hashF : K → Nat) (eqK : K → K → Bool) (keyOf : V → K)

/-- The relinking performed by `Buckets::rehash` via the intrusive
`rehash(bucket_traits)`: every node moves to the bucket its hash selects
in the array of `count` buckets.  Nodes are neither reallocated nor
removed and the temporal list is not touched. -/
def redistribute (count : Nat) (es : List (Elem V)) :
    List (List (Elem V)) :=
  es.foldl
    (fun bs e =>
      let i := bucketIdxK hashF (count) (keyOf e.value)
      bs.set i (bs.getD i [] ++ [e]))
    (List.replicate count [])

/-- `Buckets::rehash (count)`: a no-op when `count` equals the current
bucket count, otherwise relink every node into a bucket array of `count`
buckets. -/
def rehashTo (count : Nat) (c : AgedUnordered V) : AgedUnordered V :=
  if count = c.buckets.length then c
  else ⟨redistribute hashF keyOf count (joinAll c),
        c.list, c.whens, c.nextId⟩

/-- `would_exceed (additional)` with the default
`max_load_factor() = 1.0`:
`size() + additional > bucket_count() * max_load_factor()`. -/
def would_exceed (additional : Nat) (c : AgedUnordered V) : Bool :=
  decide (size c + additional > c.buckets.length)

/-- `maybe_rehash (additional)`: grow the bucket array to
`suggested_upper_bucket_count (size + additional)` whenever the load
factor limit would be exceeded. -/
def maybe_rehash (additional : Nat) (c : AgedUnordered V) :
    AgedUnordered V :=
  if would_exceed additional c then
    rehashTo hashF keyOf
      (suggested_upper_bucket_count (size c + additional)) c
  else c

/-- Public `rehash (count)`: clamp `count` from below by
`size() / max_load_factor()` (exactly `size()` at the default limit) and
rehash to it. -/
def rehash (count : Nat) (c : AgedUnordered V) : AgedUnordered V :=
  rehashTo hashF keyOf (max count (size c)) c

/-- Public `reserve (count)`:
`rehash (ceil (count / max_load_factor()))`, which is `rehash (count)`
at the default limit. -/
def reserve (count : Nat) (c : AgedUnordered V) : AgedUnordered V :=
  rehash hashF keyOf count c

/-- Unique-variant `insert(value)` of the hash container:
`maybe_rehash(1)` first, then probe the key's bucket (`insert_check`
with the stored hasher and equality); on a hit return the existing node
and `false`; otherwise allocate a node stamped `clock().now()`, push it
at the back of the temporal list and commit it into its bucket. -/
def insert_unique (v : V) (now : Nat) (c : AgedUnordered V) :
    AgedUnordered V × Bool × Elem V :=
  let c1 := maybe_rehash hashF keyOf 1 c
  let i := bucketIdxK hashF c1.buckets.length (keyOf v)
  match (bucketGet c1 i).find? (fun e => eqK (keyOf v) (keyOf e.value)) with
  | some e => (c1, false, e)
  | none =>
      let p : Elem V := ⟨c1.nextId, v⟩
      (⟨c1.buckets.set i (bucketInsert eqK keyOf p (bucketGet c1 i)),
        c1.list ++ [p], c1.stamp c1.nextId now, c1.nextId + 1⟩, true, p)

/-- Multi-variant `insert(value)` of the hash container:
`maybe_rehash(1)`, allocate, push at the back of the temporal list, link
into the key's bucket. -/
def insert_multi (v : V) (now : Nat) (c : AgedUnordered V) :
    AgedUnordered V × Elem V :=
  let c1 := maybe_rehash hashF keyOf 1 c
  let i := bucketIdxK hashF c1.buckets.length (keyOf v)
  let p : Elem V := ⟨c1.nextId, v⟩
  (⟨c1.buckets.set i (bucketInsert eqK keyOf p (bucketGet c1 i)),
    c1.list ++ [p], c1.stamp c1.nextId now, c1.nextId + 1⟩, p)

/-- Unique-variant `emplace` of the hash container: `maybe_rehash(1)`,
construct the node, probe with its key; on a collision the node is
destroyed again (the rehash, if any, stays), otherwise commit. -/
def emplace_unique (v : V) (now : Nat) (c : AgedUnordered V) :
    AgedUnordered V × Bool × Elem V :=
  insert_unique hashF eqK keyOf v now c

/-- Multi-variant `emplace` of the hash container. -/
def emplace_multi (v : V) (now : Nat) (c : AgedUnordered V) :
    AgedUnordered V × Elem V :=
  insert_multi hashF eqK keyOf v now c

/-- `operator[] (key)` on the unique hash map: `maybe_rehash(1)`, probe
the key's bucket; on a miss allocate a node holding the key paired with
a default-constructed mapped value (`dflt`), push it at the back of the
temporal list and commit it. -/
def opIndex (k : K) (dflt : V) (now : Nat) (c : AgedUnordered V) :
    AgedUnordered V × Elem V :=
  let c1 := maybe_rehash hashF keyOf 1 c
  let i := bucketIdxK hashF c1.buckets.length k
  match (bucketGet c1 i).find? (fun e => eqK k (keyOf e.value)) with
  | some e => (c1, e)
  | none =>
      let p : Elem V := ⟨c1.nextId, dflt⟩
      (⟨c1.buckets.set i (bucketInsert eqK keyOf p (bucketGet c1 i)),
        c1.list ++ [p], c1.stamp c1.nextId now, c1.nextId + 1⟩, p)

/-- `erase(pos)` of the hash container: unlink the designated node from
its bucket and from the temporal list, deallocate it. -/
def erase_iter (i : Nat) (c : AgedUnordered V) :
    Option (AgedUnordered V) :=
  match (joinAll c).find? (fun e => e.id == i) with
  | none => none
  | some _ =>
      some ⟨c.buckets.map (fun b => b.eraseP (fun e => e.id == i)),
            c.list.eraseP (fun e => e.id == i), c.whens, c.nextId⟩

/-- `erase(k)` of the hash container: `find` probes the key's bucket (0
removed on a miss); the removal loop then walks the container's
iteration order from the found node, with the `done` flag computed by
`m_config (*p, extract (iter->value))`, which for the unordered
configuration resolves to the stored key equality
`equal (key(p), key(successor))`.  Reading the successor of the last
element dereferences `end()`: `none`. -/
def erase_key (k : K) (c : AgedUnordered V) :
    Option (AgedUnordered V × Nat) :=
  let i0 := bucketIdxK hashF c.buckets.length k
  match (bucketGet c i0).find? (fun e => eqK k (keyOf e.value)) with
  | none => some (c, 0)
  | some e0 =>
      match (joinAll c).findIdx? (fun e => e.id == e0.id) with
      | none => none
      | some i =>
          match eraseRun (fun p q => eqK (keyOf p.value) (keyOf q.value))
              ((joinAll c).drop i) with
          | none => none
          | some (rem, _suf) =>
              some (⟨c.buckets.map (fun b =>
                       b.filter (fun e => !rem.any (fun p => p.id == e.id))),
                     unlinkAllList rem c.list, c.whens, c.nextId⟩,
                    rem.length)

/-- `touch(pos)` of the hash container: identical to the ordered one;
the bucket array is not touched. -/
def touch_iter (i : Nat) (now : Nat) (c : AgedUnordered V) :
    Option (AgedUnordered V) :=
  match c.list.find? (fun e => e.id == i) with
  | none => none
  | some e =>
      some ⟨c.buckets, c.list.eraseP (fun x => x.id == i) ++ [e],
            c.stamp i now, c.nextId⟩

/-- `touch(k)` of the hash container: `clock().now()` once, then `touch`
every node of `equal_range(k)` (the equal-key group in the key's
bucket). -/
def touch_key (k : K) (now : Nat) (c : AgedUnordered V) :
    Option (AgedUnordered V × Nat) :=
  let range := (bucketGet c (bucketIdxK hashF c.buckets.length k)).filter
    (fun e => eqK k (keyOf e.value))
  (range.foldlM (fun st e => touch_iter e.id now st) c).map
    (fun st => (st, range.length))

/-- `clear()` of the hash container: deallocate every node walking the
temporal list, clear both indices and the bucket vector. -/
def clear (c : AgedUnordered V) : AgedUnordered V :=
  ⟨[], [], c.whens, c.nextId⟩

/-- `insert_unchecked` (unique): probe and commit without
`maybe_rehash`; used by assignment after one up-front rehash. -/
def insert_unchecked_unique (v : V) (now : Nat) (c : AgedUnordered V) :
    AgedUnordered V × Bool × Elem V :=
  let i := bucketIdxK hashF c.buckets.length (keyOf v)
  match (bucketGet c i).find? (fun e => eqK (keyOf v) (keyOf e.value)) with
  | some e => (c, false, e)
  | none =>
      let p : Elem V := ⟨c.nextId, v⟩
      (⟨c.buckets.set i (bucketInsert eqK keyOf p (bucketGet c i)),
        c.list ++ [p], c.stamp c.nextId now, c.nextId + 1⟩, true, p)

/-- `insert_unchecked` (multi). -/
def insert_unchecked_multi (v : V) (now : Nat) (c : AgedUnordered V) :
    AgedUnordered V × Elem V :=
  let i := bucketIdxK hashF c.buckets.length (keyOf v)
  let p : Elem V := ⟨c.nextId, v⟩
  (⟨c.buckets.set i (bucketInsert eqK keyOf p (bucketGet c i)),
    c.list ++ [p], c.stamp c.nextId now, c.nextId + 1⟩, p)

/-- Copy/move assignment of the unique hash container: clear, copy the
configuration, install a freshly constructed bucket vector
(`suggested_upper_bucket_count(0) = 3` buckets), `maybe_rehash` for the
source's size, then `insert_unchecked` each source value in the source's
iteration order. -/
def assign_unique (vs : List V) (now : Nat) (c : AgedUnordered V) :
    AgedUnordered V :=
  let c0 : AgedUnordered V :=
    ⟨List.replicate 3 [], [], c.whens, c.nextId⟩
  let c1 := maybe_rehash hashF keyOf vs.length c0
  vs.foldl (fun st v =>
    (insert_unchecked_unique hashF eqK keyOf v now st).1) c1

/-- Copy/move assignment of the multi hash container. -/
def assign_multi (vs : List V) (now : Nat) (c : AgedUnordered V) :
    AgedUnordered V :=
  let c0 : AgedUnordered V :=
    ⟨List.replicate 3 [], [], c.whens, c.nextId⟩
  let c1 := maybe_rehash hashF keyOf vs.length c0
  vs.foldl (fun st v =>
    (insert_unchecked_multi hashF eqK keyOf v now st).1) c1

/-- Copy construction of the unique hash container: copy the
configuration (sharing the clock), default-construct the bucket vector,
then insert the source's elements one by one (the source iterators are
forward iterators, so the one-by-one branch of the range insert runs,
performing `maybe_rehash(1)` before each); every node is created by
`new_element`, which stamps `clock().now()` observed during the copy. -/
def copyOf (src : AgedUnordered V) (now : Nat) : AgedUnordered V :=
  ((joinAll src).map (fun e => e.value)).foldl
    (fun st v => (insert_unique hashF eqK keyOf v now st).1) (empty V)

end AgedUnordered

/-- A public mutating operation of the ordered container, carrying the
`clock().now()` value it observes.  `swapWith` swaps with another
container; `assignU`/`assignM` assign from a source whose values in
associative order are `vs`. -/
inductive OOp (K V : Type) where
  | insU (v : V) (now : Nat)
  | insM (v : V) (now : Nat)
  | empU (v : V) (now : Nat)
  | empM (v : V) (now : Nat)
  | idxOp (k : K) (dflt : V) (now : Nat)
  | eraseIt (i : Nat)
  | eraseK (k : K)
  | touchIt (i : Nat) (now : Nat)
  | touchK (k : K) (now : Nat)
  | clearOp
  | assignU (vs : List V) (now : Nat)
  | assignM (vs : List V) (now : Nat)
  | swapWith (other : AgedOrdered V)

/-- Effect of one public operation on an ordered container; `none` for
undefined behaviour (invalid iterator, the `end()` dereference in
`erase(key)`). -/
def applyO (lt : K → K → Bool) (keyOf : V → K) [DecidableEq V]
    (op : OOp K V) (c : AgedOrdered V) : Option (AgedOrdered V) :=
  match op with
  | .insU v now => some (AgedOrdered.insert_unique lt keyOf v now c).1
  | .insM v now => some (AgedOrdered.insert_multi lt keyOf v now c).1
  | .empU v now => some (AgedOrdered.emplace_unique lt keyOf v now c).1
  | .empM v now => some (AgedOrdered.emplace_multi lt keyOf v now c).1
  | .idxOp k d now => some (AgedOrdered.opIndex lt keyOf k d now c).1
  | .eraseIt i => AgedOrdered.erase_iter i c
  | .eraseK k => (AgedOrdered.erase_key lt keyOf k c).map Prod.fst
  | .touchIt i now => AgedOrdered.touch_iter i now c
  | .touchK k now => (AgedOrdered.touch_key lt keyOf k now c).map Prod.fst
  | .clearOp => some (AgedOrdered.clear c)
  | .assignU vs now => some (AgedOrdered.assign_unique lt keyOf vs now c)
  | .assignM vs now => some (AgedOrdered.assign_multi lt keyOf vs now c)
  | .swapWith o => some ⟨o.cont, o.list, o.whens, o.nextId⟩

/-- Run a sequence of public operations from the empty ordered
container. -/
def runO (lt : K → K → Bool) (keyOf : V → K) [DecidableEq V]
    (os : List (OOp K V)) : Option (AgedOrdered V) :=
  os.foldlM (fun c op => applyO lt keyOf op c) (AgedOrdered.empty V)

/-- Structural invariant of the ordered container: the associative index
and the temporal list hold the same nodes (as a multiset), node
identities are pairwise distinct (each node is linked exactly once in
each index), and all identities are below the allocation counter. -/
def InvO (c : AgedOrdered V) : Prop :=
  c.cont.Perm c.list ∧ (c.cont.map Elem.id).Nodup ∧
    ∀ e ∈ c.cont, e.id < c.nextId

instance [DecidableEq V] (c : AgedOrdered V) : Decidable (InvO c) := by
  unfold InvO; infer_instance

/-- Side condition of an ordered operation: the partner of a swap is
itself a well-formed container. -/
def GoodO : OOp K V → Prop
  | .swapWith o => InvO o
  | _ => True

instance [DecidableEq V] : (op : OOp K V) → Decidable (GoodO op)
  | .insU _ _ => .isTrue trivial
  | .insM _ _ => .isTrue trivial
  | .empU _ _ => .isTrue trivial
  | .empM _ _ => .isTrue trivial
  | .idxOp _ _ _ => .isTrue trivial
  | .eraseIt _ => .isTrue trivial
  | .eraseK _ => .isTrue trivial
  | .touchIt _ _ => .isTrue trivial
  | .touchK _ _ => .isTrue trivial
  | .clearOp => .isTrue trivial
  | .assignU _ _ => .isTrue trivial
  | .assignM _ _ => .isTrue trivial
  | .swapWith o => inferInstanceAs (Decidable (InvO o))

/-- A public mutating operation of the hash container. -/
inductive UOp (K V : Type) where
  | insU (v : V) (now : Nat)
  | insM (v : V) (now : Nat)
  | empU (v : V) (now : Nat)
  | empM (v : V) (now : Nat)
  | idxOp (k : K) (dflt : V) (now : Nat)
  | eraseIt (i : Nat)
  | eraseK (k : K)
  | touchIt (i : Nat) (now : Nat)
  | touchK (k : K) (now : Nat)
  | clearOp
  | assignU (vs : List V) (now : Nat)
  | assignM (vs : List V) (now : Nat)
  | rehashOp (count : Nat)
  | reserveOp (count : Nat)
  | swapWith (other : AgedUnordered V)

/-- Effect of one public operation on a hash container. -/
def applyU (hashF : K → Nat) (eqK : K → K → Bool) (keyOf : V → K)
    [DecidableEq V] (op : UOp K V) (c : AgedUnordered V) :
    Option (AgedUnordered V) :=
  match op with
  | .insU v now => some (AgedUnordered.insert_unique hashF eqK keyOf v now c).1
  | .insM v now => some (AgedUnordered.insert_multi hashF eqK keyOf v now c).1
  | .empU v now => some (AgedUnordered.emplace_unique hashF eqK keyOf v now c).1
  | .empM v now => some (AgedUnordered.emplace_multi hashF eqK keyOf v now c).1
  | .idxOp k d now => some (AgedUnordered.opIndex hashF eqK keyOf k d now c).1
  | .eraseIt i => AgedUnordered.erase_iter i c
  | .eraseK k => (AgedUnordered.erase_key hashF eqK keyOf k c).map Prod.fst
  | .touchIt i now => AgedUnordered.touch_iter i now c
  | .touchK k now =>
      (AgedUnordered.touch_key hashF eqK keyOf k now c).map Prod.fst
  | .clearOp => some (AgedUnordered.clear c)
  | .assignU vs now =>
      some (AgedUnordered.assign_unique hashF eqK keyOf vs now c)
  | .assignM vs now =>
      some (AgedUnordered.assign_multi hashF eqK keyOf vs now c)
  | .rehashOp count => some (AgedUnordered.rehash hashF keyOf count c)
  | .reserveOp count => some (AgedUnordered.reserve hashF keyOf count c)
  | .swapWith o => some ⟨o.buckets, o.list, o.whens, o.nextId⟩

/-- Run a sequence of public operations from the empty hash
container. -/
def runU (hashF : K → Nat) (eqK : K → K → Bool) (keyOf : V → K)
    [DecidableEq V] (us : List (UOp K V)) : Option (AgedUnordered V) :=
  us.foldlM (fun c op => applyU hashF eqK keyOf op c)
    (AgedUnordered.empty V)

/-- Structural invariant of the hash container: the union of the
buckets and the temporal list hold the same nodes, identities are
pairwise distinct, and all identities are below the allocation
counter. -/
def InvU (c : AgedUnordered V) : Prop :=
  (AgedUnordered.joinAll c).Perm c.list ∧
    ((AgedUnordered.joinAll c).map Elem.id).Nodup ∧
    ∀ e ∈ AgedUnordered.joinAll c, e.id < c.nextId

instance [DecidableEq V] (c : AgedUnordered V) : Decidable (InvU c) := by
  unfold InvU; infer_instance

/-- Side condition of a hash-container operation. -/
def GoodU : UOp K V → Prop
  | .swapWith o => InvU o
  | _ => True

instance [DecidableEq V] : (op : UOp K V) → Decidable (GoodU op)
  | .insU _ _ => .isTrue trivial
  | .insM _ _ => .isTrue trivial
  | .empU _ _ => .isTrue trivial
  | .empM _ _ => .isTrue trivial
  | .idxOp _ _ _ => .isTrue trivial
  | .eraseIt _ => .isTrue trivial
  | .eraseK _ => .isTrue trivial
  | .touchIt _ _ => .isTrue trivial
  | .touchK _ _ => .isTrue trivial
  | .clearOp => .isTrue trivial
  | .assignU _ _ => .isTrue trivial
  | .assignM _ _ => .isTrue trivial
  | .rehashOp _ => .isTrue trivial
  | .reserveOp _ => .isTrue trivial
  | .swapWith o => inferInstanceAs (Decidable (InvU o))

section ListLemmas

variable {V : Type} [DecidableEq V]

theorem insertUB_perm (lt : K → K → Bool) (keyOf : V → K) (k : K)
    (p : Elem V) (l : List (Elem V)) :
    (insertUB lt keyOf k p l).Perm (p :: l) := by
  induction l with
  | nil => simp [insertUB]
  | cons x xs ih =>
      simp only [insertUB]
      split
      · exact List.Perm.refl _
      · exact (ih.cons x).trans (List.Perm.swap p x xs)

theorem eraseRun_eq_append {done : Elem V → Elem V → Bool} :
    ∀ {l rem suf : List (Elem V)}, eraseRun done l = some (rem, suf) →
      l = rem ++ suf := by
  intro l
  induction l with
  | nil => intro rem suf h; simp [eraseRun] at h
  | cons p tail ih =>
      intro rem suf h
      cases tail with
      | nil => simp [eraseRun] at h
      | cons q rest =>
          simp only [eraseRun] at h
          split at h
          · injection h with h'
            injection h' with h1 h2
            subst h1; subst h2; rfl
          · cases hrec : eraseRun done (q :: rest) with
            | none => rw [hrec] at h; simp at h
            | some pr =>
                obtain ⟨rem', suf'⟩ := pr
                rw [hrec] at h
                simp only [Option.some.injEq, Prod.mk.injEq] at h
                obtain ⟨h1, h2⟩ := h
                subst h1; subst h2
                simpa using congrArg (p :: ·) (ih hrec)

theorem eraseP_id_eq_erase (p : Elem V) :
    ∀ (l : List (Elem V)), p ∈ l → (l.map Elem.id).Nodup →
      l.eraseP (fun e => e.id == p.id) = l.erase p := by
  intro l
  induction l with
  | nil => intro h; cases h
  | cons x xs ih =>
      intro hmem hnd
      rw [List.map_cons, List.nodup_cons] at hnd
      by_cases hx : x = p
      · subst hx
        simp [List.eraseP_cons, List.erase_cons]
      · have hpxs : p ∈ xs := by
          rcases List.mem_cons.mp hmem with h | h
          · exact absurd h.symm hx
          · exact h
        have hxid : (x.id == p.id) = false := by
          simp only [beq_eq_false_iff_ne, ne_eq]
          intro hEq
          exact hnd.1 (hEq ▸ List.mem_map_of_mem Elem.id hpxs)
        have hbeq : (x == p) = false := by
          simp only [beq_eq_false_iff_ne, ne_eq]
          exact hx
        simp [List.eraseP_cons, List.erase_cons, hxid, hbeq, ih hpxs hnd.2]

theorem not_mem_left_of_middle_nodup {p : Elem V}
    {pre rem suf : List (Elem V)}
    (hnd : ((pre ++ (p :: rem) ++ suf).map Elem.id).Nodup) : p ∉ pre := by
  intro hmem
  rw [List.append_assoc, List.map_append, List.nodup_append] at hnd
  exact (List.disjoint_left.mp hnd.2.2)
    (List.mem_map_of_mem Elem.id hmem) (by simp)

theorem unlinkAll_perm :
    ∀ (rem pre suf l : List (Elem V)),
      ((pre ++ rem ++ suf).map Elem.id).Nodup →
      l.Perm (pre ++ rem ++ suf) →
      (unlinkAllList rem l).Perm (pre ++ suf) := by
  intro rem
  induction rem with
  | nil =>
      intro pre suf l hnd hperm
      simpa [unlinkAllList] using hperm
  | cons p rem ih =>
      intro pre suf l hnd hperm
      have hpl : p ∈ l := hperm.mem_iff.mpr (by simp)
      have hlnd : (l.map Elem.id).Nodup :=
        ((hperm.map Elem.id).nodup_iff).mpr hnd
      have hppre : p ∉ pre := not_mem_left_of_middle_nodup hnd
      have hstep : (l.erase p).Perm (pre ++ rem ++ suf) := by
        have h1 := hperm.erase p
        rw [List.append_assoc, List.erase_append_right _ hppre,
            List.cons_append, List.erase_cons_head,
            ← List.append_assoc] at h1
        exact h1
      have hnd' : ((pre ++ rem ++ suf).map Elem.id).Nodup := by
        refine List.Sublist.nodup (List.Sublist.map Elem.id ?_) hnd
        rw [List.append_assoc, List.append_assoc]
        exact List.Sublist.append_left
          (List.Sublist.append_right (List.sublist_cons_self p rem) suf
            |>.trans (by simp)) pre
      have : unlinkAllList (p :: rem) l =
          unlinkAllList rem (l.eraseP (fun e => e.id == p.id)) := by
        simp [unlinkAllList]
      rw [this, eraseP_id_eq_erase p l hpl hlnd]
      exact ih pre suf (l.erase p) hnd' hstep

theorem erase_tail_perm {e : Elem V} {l : List (Elem V)}
    (hmem : e ∈ l) : (l.erase e ++ [e]).Perm l :=
  ((List.perm_append_singleton e (l.erase e)).trans
    (List.perm_cons_erase hmem).symm)

end ListLemmas

section OrderedInv

variable {K V : Type} [DecidableEq V]
variable (lt : K → K → Bool) (keyOf : V → K)

theorem commit_inv {c : AgedOrdered V} (hI : InvO c) (k : K) (v : V)
    (w : Nat → Nat) :
    InvO (⟨insertUB lt keyOf k ⟨c.nextId, v⟩ c.cont,
      c.list ++ [(⟨c.nextId, v⟩ : Elem V)], w, c.nextId + 1⟩ :
        AgedOrdered V) := by
  obtain ⟨hperm, hnd, hbnd⟩ := hI
  have hins := insertUB_perm lt keyOf k (⟨c.nextId, v⟩ : Elem V) c.cont
  refine ⟨?_, ?_, ?_⟩
  · exact hins.trans ((hperm.cons _).trans
      (List.perm_append_singleton _ c.list).symm)
  · have hmap := hins.map Elem.id
    rw [List.map_cons] at hmap
    rw [hmap.nodup_iff, List.nodup_cons]
    refine ⟨?_, hnd⟩
    intro hmem
    rcases List.mem_map.mp hmem with ⟨e, he, hid⟩
    have := hbnd e he
    simp only [Elem.id] at hid
    omega
  · intro e he
    rcases List.mem_cons.mp (hins.mem_iff.mp he) with h | hmem
    · subst h; simp
    · have := hbnd e hmem
      dsimp only
      omega

theorem insert_unique_inv {c : AgedOrdered V} (hI : InvO c) (v : V)
    (now : Nat) : InvO (AgedOrdered.insert_unique lt keyOf v now c).1 := by
  rw [AgedOrdered.insert_unique]
  cases h : c.cont.find? (fun e => equivK lt (keyOf v) (keyOf e.value)) with
  | some e => exact hI
  | none => exact commit_inv lt keyOf hI (keyOf v) v _

theorem insert_multi_inv {c : AgedOrdered V} (hI : InvO c) (v : V)
    (now : Nat) : InvO (AgedOrdered.insert_multi lt keyOf v now c).1 := by
  rw [AgedOrdered.insert_multi]
  exact commit_inv lt keyOf hI (keyOf v) v _

theorem opIndex_inv {c : AgedOrdered V} (hI : InvO c) (k : K) (d : V)
    (now : Nat) : InvO (AgedOrdered.opIndex lt keyOf k d now c).1 := by
  rw [AgedOrdered.opIndex]
  cases h : c.cont.find? (fun e => equivK lt k (keyOf e.value)) with
  | some e => exact hI
  | none => exact commit_inv lt keyOf hI k d _

theorem erase_iter_inv {c c' : AgedOrdered V} (hI : InvO c) (i : Nat)
    (h : AgedOrdered.erase_iter i c = some c') : InvO c' := by
  obtain ⟨hperm, hnd, hbnd⟩ := hI
  rw [AgedOrdered.erase_iter] at h
  split at h
  · cases h
  · rename_i p hf
    injection h with h; subst h
    have hpc : p ∈ c.cont := List.mem_of_find?_eq_some hf
    have hpid : p.id = i := by
      have := List.find?_some hf
      simpa using this
    have hpl : p ∈ c.list := hperm.mem_iff.mp hpc
    have hlnd : (c.list.map Elem.id).Nodup :=
      ((hperm.map Elem.id).nodup_iff).mp hnd
    subst hpid
    refine ⟨?_, ?_, ?_⟩
    · rw [eraseP_id_eq_erase p c.cont hpc hnd,
          eraseP_id_eq_erase p c.list hpl hlnd]
      exact hperm.erase p
    · rw [eraseP_id_eq_erase p c.cont hpc hnd]
      exact List.Sublist.nodup
        (List.Sublist.map Elem.id (List.erase_sublist p c.cont)) hnd
    · intro e he
      rw [eraseP_id_eq_erase p c.cont hpc hnd] at he
      exact hbnd e (List.mem_of_mem_erase he)

theorem erase_key_inv {c : AgedOrdered V} {r : AgedOrdered V × Nat}
    (hI : InvO c) (k : K)
    (h : AgedOrdered.erase_key lt keyOf k c = some r) : InvO r.1 := by
  obtain ⟨hperm, hnd, hbnd⟩ := hI
  rw [AgedOrdered.erase_key] at h
  split at h
  · injection h with h; subst h
    exact ⟨hperm, hnd, hbnd⟩
  · rename_i i hf
    split at h
    · cases h
    · rename_i pr rem suf hr
      injection h with h; subst h
      have hsplit : c.cont = c.cont.take i ++ (rem ++ suf) := by
        conv_lhs => rw [← List.take_append_drop i c.cont]
        rw [eraseRun_eq_append hr]
      have hnd2 : ((c.cont.take i ++ rem ++ suf).map Elem.id).Nodup := by
        rw [List.append_assoc, ← hsplit]; exact hnd
      have hpermL : c.list.Perm (c.cont.take i ++ rem ++ suf) := by
        rw [List.append_assoc, ← hsplit]; exact hperm.symm
      have hsub : (c.cont.take i ++ suf).Sublist c.cont := by
        conv_rhs => rw [hsplit]
        exact List.Sublist.append_left (List.sublist_append_right rem suf)
          (c.cont.take i)
      refine ⟨?_, ?_, ?_⟩
      · exact (unlinkAll_perm rem (c.cont.take i) suf c.list hnd2
          hpermL).symm
      · exact List.Sublist.nodup (List.Sublist.map Elem.id hsub) hnd
      · intro e he
        exact hbnd e (hsub.mem he)

theorem touch_iter_inv {c c' : AgedOrdered V} (hI : InvO c) (i now : Nat)
    (h : AgedOrdered.touch_iter i now c = some c') : InvO c' := by
  obtain ⟨hperm, hnd, hbnd⟩ := hI
  rw [AgedOrdered.touch_iter] at h
  split at h
  · cases h
  · rename_i e hf
    injection h with h; subst h
    have hel : e ∈ c.list := List.mem_of_find?_eq_some hf
    have heid : e.id = i := by
      have := List.find?_some hf
      simpa using this
    have hlnd : (c.list.map Elem.id).Nodup :=
      ((hperm.map Elem.id).nodup_iff).mp hnd
    subst heid
    refine ⟨?_, hnd, hbnd⟩
    rw [eraseP_id_eq_erase e c.list hel hlnd]
    exact hperm.trans (erase_tail_perm hel).symm

theorem foldlM_option_preserve {σ α : Type} (P : σ → Prop)
    (f : σ → α → Option σ)
    (hstep : ∀ s a s', P s → f s a = some s' → P s') :
    ∀ (xs : List α) (s s' : σ), P s → xs.foldlM f s = some s' → P s' := by
  intro xs
  induction xs with
  | nil =>
      intro s s' hP h
      simp only [List.foldlM_nil] at h
      injection h with h; subst h; exact hP
  | cons x xs ih =>
      intro s s' hP h
      rw [List.foldlM_cons] at h
      cases hx : f s x with
      | none => rw [hx] at h; cases h
      | some s1 =>
          rw [hx] at h
          exact ih s1 s' (hstep s x s1 hP hx) h

theorem touch_key_inv {c : AgedOrdered V} {r : AgedOrdered V × Nat}
    (hI : InvO c) (k : K) (now : Nat)
    (h : AgedOrdered.touch_key lt keyOf k now c = some r) : InvO r.1 := by
  rw [AgedOrdered.touch_key] at h
  cases hfold : (c.cont.filter
      (fun e => equivK lt k (keyOf e.value))).foldlM
      (fun st e => AgedOrdered.touch_iter e.id now st) c with
  | none => rw [hfold] at h; cases h
  | some st =>
      rw [hfold] at h
      injection h with h; subst h
      exact foldlM_option_preserve InvO _
        (fun s a s' hP hf => touch_iter_inv hP a.id now hf) _ c st hI hfold

theorem clear_inv (c : AgedOrdered V) : InvO (AgedOrdered.clear c) := by
  exact ⟨List.Perm.refl _, List.nodup_nil, by intro e he; cases he⟩

theorem foldl_preserve {σ α : Type} (P : σ → Prop) (f : σ → α → σ)
    (hstep : ∀ s a, P s → P (f s a)) :
    ∀ (xs : List α) (s : σ), P s → P (xs.foldl f s) := by
  intro xs
  induction xs with
  | nil => intro s hP; exact hP
  | cons x xs ih => intro s hP; exact ih (f s x) (hstep s x hP)

theorem assign_unique_inv {c : AgedOrdered V} (vs : List V) (now : Nat) :
    InvO (AgedOrdered.assign_unique lt keyOf vs now c) := by
  rw [AgedOrdered.assign_unique]
  exact foldl_preserve InvO _
    (fun s v hP => insert_unique_inv lt keyOf hP v now) vs _ (clear_inv c)

theorem assign_multi_inv {c : AgedOrdered V} (vs : List V) (now : Nat) :
    InvO (AgedOrdered.assign_multi lt keyOf vs now c) := by
  rw [AgedOrdered.assign_multi]
  exact foldl_preserve InvO _
    (fun s v hP => insert_multi_inv lt keyOf hP v now) vs _ (clear_inv c)

theorem applyO_inv {op : OOp K V} {c c' : AgedOrdered V}
    (hg : GoodO op) (hI : InvO c) (h : applyO lt keyOf op c = some c') :
    InvO c' := by
  cases op with
  | insU v now =>
      injection h with h; subst h; exact insert_unique_inv lt keyOf hI v now
  | insM v now =>
      injection h with h; subst h; exact insert_multi_inv lt keyOf hI v now
  | empU v now =>
      injection h with h; subst h
      exact insert_unique_inv lt keyOf hI v now
  | empM v now =>
      injection h with h; subst h
      exact insert_multi_inv lt keyOf hI v now
  | idxOp k d now =>
      injection h with h; subst h; exact opIndex_inv lt keyOf hI k d now
  | eraseIt i => exact erase_iter_inv hI i h
  | eraseK k =>
      simp only [applyO, Option.map_eq_some'] at h
      obtain ⟨r, hr, hr'⟩ := h
      subst hr'
      exact erase_key_inv lt keyOf hI k hr
  | touchIt i now => exact touch_iter_inv hI i now h
  | touchK k now =>
      simp only [applyO, Option.map_eq_some'] at h
      obtain ⟨r, hr, hr'⟩ := h
      subst hr'
      exact touch_key_inv lt keyOf hI k now hr
  | clearOp => injection h with h; subst h; exact clear_inv c
  | assignU vs now =>
      injection h with h; subst h; exact assign_unique_inv lt keyOf vs now
  | assignM vs now =>
      injection h with h; subst h; exact assign_multi_inv lt keyOf vs now
  | swapWith o =>
      injection h with h; subst h; exact hg

theorem runO_aux :
    ∀ (os : List (OOp K V)) (c0 c : AgedOrdered V),
      (∀ op ∈ os, GoodO op) → InvO c0 →
      os.foldlM (fun c op => applyO lt keyOf op c) c0 = some c →
      InvO c := by
  intro os
  induction os with
  | nil =>
      intro c0 c _ hI h
      simp only [List.foldlM_nil] at h
      injection h with h; subst h; exact hI
  | cons op os ih =>
      intro c0 c hg hI h
      rw [List.foldlM_cons] at h
      cases hx : applyO lt keyOf op c0 with
      | none => rw [hx] at h; cases h
      | some c1 =>
          rw [hx] at h
          exact ih c1 c (fun o ho => hg o (by simp [ho]))
            (applyO_inv lt keyOf (hg op (by simp)) hI hx) h

theorem runO_inv {os : List (OOp K V)} {c : AgedOrdered V}
    (hg : ∀ op ∈ os, GoodO op) (h : runO lt keyOf os = some c) :
    InvO c :=
  runO_aux lt keyOf os (AgedOrdered.empty V) c hg
    ⟨List.Perm.refl _, List.nodup_nil, by intro e he; cases he⟩ h

end OrderedInv

section UnorderedInv

variable {K V : Type} [DecidableEq V]
variable (hashF : K → Nat) (eqK : K → K → Bool) (keyOf : V → K)

theorem flatten_set_perm {α : Type} (a : α) :
    ∀ (bs : List (List α)) (i : Nat) (b' : List α), i < bs.length →
      b'.Perm (a :: bs.getD i []) →
      ((bs.set i b').flatten).Perm (a :: bs.flatten) := by
  intro bs
  induction bs with
  | nil => intro i b' h; simp at h
  | cons b bs ih =>
      intro i b' hi hp
      cases i with
      | zero =>
          rw [List.set_cons_zero, List.flatten_cons, List.flatten_cons]
          rw [List.getD_cons_zero] at hp
          simpa using hp.append_right bs.flatten
      | succ i =>
          rw [List.set_cons_succ, List.flatten_cons, List.flatten_cons]
          rw [List.getD_cons_succ] at hp
          have := ih i b' (by simpa using hi) hp
          exact (this.append_left b).trans List.perm_middle

theorem bucketInsert_perm (p : Elem V) (b : List (Elem V)) :
    (AgedUnordered.bucketInsert eqK keyOf p b).Perm (p :: b) := by
  rw [AgedUnordered.bucketInsert]
  split
  · exact List.perm_middle.trans
      (by rw [List.take_append_drop])
  · exact List.Perm.refl _

theorem redistribute_aux (count : Nat) (hc : 0 < count) :
    ∀ (es : List (Elem V)) (acc : List (List (Elem V))),
      acc.length = count →
      ((es.foldl (fun bs e =>
          let i := AgedUnordered.bucketIdxK hashF count (keyOf e.value)
          bs.set i (bs.getD i [] ++ [e])) acc).flatten).Perm
        (acc.flatten ++ es) := by
  intro es
  induction es with
  | nil => intro acc hlen; simp
  | cons e es ih =>
      intro acc hlen
      rw [List.foldl_cons]
      have hi : AgedUnordered.bucketIdxK hashF count (keyOf e.value) <
          acc.length := by
        rw [hlen]; exact Nat.mod_lt _ hc
      have hstep := flatten_set_perm e acc
        (AgedUnordered.bucketIdxK hashF count (keyOf e.value))
        (acc.getD (AgedUnordered.bucketIdxK hashF count (keyOf e.value)) []
          ++ [e]) hi (List.perm_append_singleton _ _)
      have hlen2 : (acc.set
          (AgedUnordered.bucketIdxK hashF count (keyOf e.value))
          (acc.getD (AgedUnordered.bucketIdxK hashF count (keyOf e.value)) []
            ++ [e])).length = count := by
        rw [List.length_set, hlen]
      have hrest := ih _ hlen2
      refine hrest.trans ?_
      refine (hstep.append_right es).trans ?_
      simpa using List.perm_middle.symm

theorem redistribute_flatten_perm (count : Nat) (hc : 0 < count)
    (es : List (Elem V)) :
    ((AgedUnordered.redistribute hashF keyOf count es).flatten).Perm es := by
  rw [AgedUnordered.redistribute]
  have := redistribute_aux hashF keyOf count hc es
    (List.replicate count []) (List.length_replicate count [])
  simpa [List.flatten_replicate_nil] using this

theorem redistribute_length (count : Nat) (es : List (Elem V)) :
    (AgedUnordered.redistribute hashF keyOf count es).length = count := by
  rw [AgedUnordered.redistribute]
  suffices h : ∀ (l : List (Elem V)) (acc : List (List (Elem V))),
      (l.foldl (fun bs e =>
        let i := AgedUnordered.bucketIdxK hashF count (keyOf e.value)
        bs.set i (bs.getD i [] ++ [e])) acc).length = acc.length by
    rw [h, List.length_replicate]
  intro l
  induction l with
  | nil => intro acc; rfl
  | cons e l ih =>
      intro acc
      rw [List.foldl_cons]
      rw [ih, List.length_set]

theorem suggested_pos (n : Nat) : 0 < suggested_upper_bucket_count n := by
  rw [suggested_upper_bucket_count]
  cases hf : primeList.find? (fun p => n ≤ p) with
  | none => simp
  | some p =>
      have hmem := List.mem_of_find?_eq_some hf
      have hall : ∀ x ∈ primeList, 0 < x := by decide
      simpa using hall p hmem

theorem rehashTo_list (n : Nat) (c : AgedUnordered V) :
    (AgedUnordered.rehashTo hashF keyOf n c).list = c.list := by
  rw [AgedUnordered.rehashTo]; split <;> rfl

theorem rehashTo_whens (n : Nat) (c : AgedUnordered V) :
    (AgedUnordered.rehashTo hashF keyOf n c).whens = c.whens := by
  rw [AgedUnordered.rehashTo]; split <;> rfl

theorem rehashTo_nextId (n : Nat) (c : AgedUnordered V) :
    (AgedUnordered.rehashTo hashF keyOf n c).nextId = c.nextId := by
  rw [AgedUnordered.rehashTo]; split <;> rfl

theorem rehashTo_flatten_perm (n : Nat) (hn : 0 < n)
    (c : AgedUnordered V) :
    (AgedUnordered.joinAll (AgedUnordered.rehashTo hashF keyOf n c)).Perm
      (AgedUnordered.joinAll c) := by
  rw [AgedUnordered.rehashTo]
  split
  · exact List.Perm.refl _
  · exact redistribute_flatten_perm hashF keyOf n hn _

theorem rehashTo_buckets_pos (n : Nat) (hn : 0 < n)
    (c : AgedUnordered V) :
    0 < (AgedUnordered.rehashTo hashF keyOf n c).buckets.length := by
  rw [AgedUnordered.rehashTo]
  split
  · rename_i hEq; omega
  · simpa [redistribute_length] using hn

theorem maybe_rehash_list (a : Nat) (c : AgedUnordered V) :
    (AgedUnordered.maybe_rehash hashF keyOf a c).list = c.list := by
  rw [AgedUnordered.maybe_rehash]; split
  · exact rehashTo_list hashF keyOf _ c
  · rfl

theorem maybe_rehash_whens (a : Nat) (c : AgedUnordered V) :
    (AgedUnordered.maybe_rehash hashF keyOf a c).whens = c.whens := by
  rw [AgedUnordered.maybe_rehash]; split
  · exact rehashTo_whens hashF keyOf _ c
  · rfl

theorem maybe_rehash_nextId (a : Nat) (c : AgedUnordered V) :
    (AgedUnordered.maybe_rehash hashF keyOf a c).nextId = c.nextId := by
  rw [AgedUnordered.maybe_rehash]; split
  · exact rehashTo_nextId hashF keyOf _ c
  · rfl

theorem maybe_rehash_flatten_perm (a : Nat) (c : AgedUnordered V) :
    (AgedUnordered.joinAll (AgedUnordered.maybe_rehash hashF keyOf a c)).Perm
      (AgedUnordered.joinAll c) := by
  rw [AgedUnordered.maybe_rehash]
  split
  · exact rehashTo_flatten_perm hashF keyOf _ (suggested_pos _) c
  · exact List.Perm.refl _

theorem maybe_rehash_buckets_pos (a : Nat) (ha : 0 < a)
    (c : AgedUnordered V) :
    0 < (AgedUnordered.maybe_rehash hashF keyOf a c).buckets.length := by
  rw [AgedUnordered.maybe_rehash]
  split
  · exact rehashTo_buckets_pos hashF keyOf _ (suggested_pos _) c
  · rename_i hcond
    simp only [AgedUnordered.would_exceed, decide_eq_true_eq, Nat.not_lt] at hcond
    omega

theorem maybe_rehash_inv (a : Nat) {c : AgedUnordered V} (hI : InvU c) :
    InvU (AgedUnordered.maybe_rehash hashF keyOf a c) := by
  obtain ⟨hperm, hnd, hbnd⟩ := hI
  have hp := maybe_rehash_flatten_perm hashF keyOf a c
  refine ⟨?_, ?_, ?_⟩
  · rw [maybe_rehash_list]
    exact hp.trans hperm
  · exact ((hp.map Elem.id).nodup_iff).mpr hnd
  · intro e he
    rw [maybe_rehash_nextId]
    exact hbnd e (hp.mem_iff.mp he)

theorem commitU_inv {c : AgedUnordered V} (hI : InvU c) (i : Nat)
    (hi : i < c.buckets.length) (v : V) (w : Nat → Nat) :
    InvU (⟨c.buckets.set i (AgedUnordered.bucketInsert eqK keyOf
        ⟨c.nextId, v⟩ (AgedUnordered.bucketGet c i)),
      c.list ++ [(⟨c.nextId, v⟩ : Elem V)], w, c.nextId + 1⟩ :
        AgedUnordered V) := by
  obtain ⟨hperm, hnd, hbnd⟩ := hI
  have hins : ((c.buckets.set i (AgedUnordered.bucketInsert eqK keyOf
      ⟨c.nextId, v⟩ (AgedUnordered.bucketGet c i))).flatten).Perm
      ((⟨c.nextId, v⟩ : Elem V) :: c.buckets.flatten) :=
    flatten_set_perm _ c.buckets i _ hi
      (bucketInsert_perm eqK keyOf _ _)
  refine ⟨?_, ?_, ?_⟩
  · exact hins.trans ((hperm.cons _).trans
      (List.perm_append_singleton _ c.list).symm)
  · have hmap := hins.map Elem.id
    rw [List.map_cons] at hmap
    rw [AgedUnordered.joinAll, hmap.nodup_iff, List.nodup_cons]
    refine ⟨?_, hnd⟩
    intro hmem
    rcases List.mem_map.mp hmem with ⟨e, he, hid⟩
    have := hbnd e he
    simp only [Elem.id] at hid
    omega
  · intro e he
    rcases List.mem_cons.mp (hins.mem_iff.mp he) with h | hmem
    · subst h; simp
    · have := hbnd e hmem
      dsimp only
      omega

theorem mem_bucketGet {c : AgedUnordered V} {x : Elem V} {i : Nat}
    (h : x ∈ AgedUnordered.bucketGet c i) :
    x ∈ AgedUnordered.joinAll c := by
  rw [AgedUnordered.bucketGet] at h
  by_cases hi : i < c.buckets.length
  · rw [List.getD_eq_getElem _ _ hi] at h
    exact List.mem_flatten.mpr ⟨_, List.getElem_mem hi, h⟩
  · rw [List.getD_eq_default] at h
    · cases h
    · omega

theorem insert_uniqueU_inv {c : AgedUnordered V} (hI : InvU c) (v : V)
    (now : Nat) :
    InvU (AgedUnordered.insert_unique hashF eqK keyOf v now c).1 := by
  rw [AgedUnordered.insert_unique]
  have hI1 := maybe_rehash_inv hashF keyOf 1 hI
  have hpos := maybe_rehash_buckets_pos hashF keyOf 1 (by omega) c
  split
  · exact hI1
  · exact commitU_inv eqK keyOf hI1 _ (Nat.mod_lt _ hpos) v _

theorem insert_multiU_inv {c : AgedUnordered V} (hI : InvU c) (v : V)
    (now : Nat) :
    InvU (AgedUnordered.insert_multi hashF eqK keyOf v now c).1 := by
  rw [AgedUnordered.insert_multi]
  have hI1 := maybe_rehash_inv hashF keyOf 1 hI
  have hpos := maybe_rehash_buckets_pos hashF keyOf 1 (by omega) c
  exact commitU_inv eqK keyOf hI1 _ (Nat.mod_lt _ hpos) v _

theorem opIndexU_inv {c : AgedUnordered V} (hI : InvU c) (k : K) (d : V)
    (now : Nat) :
    InvU (AgedUnordered.opIndex hashF eqK keyOf k d now c).1 := by
  rw [AgedUnordered.opIndex]
  have hI1 := maybe_rehash_inv hashF keyOf 1 hI
  have hpos := maybe_rehash_buckets_pos hashF keyOf 1 (by omega) c
  split
  · exact hI1
  · exact commitU_inv eqK keyOf hI1 _ (Nat.mod_lt _ hpos) d _

theorem flatten_map_eraseP (i : Nat) :
    ∀ (bs : List (List (Elem V))), ((bs.flatten).map Elem.id).Nodup →
      (bs.map (fun b => b.eraseP (fun e => e.id == i))).flatten =
        (bs.flatten).eraseP (fun e => e.id == i) := by
  intro bs
  induction bs with
  | nil => intro _; simp
  | cons b bs ih =>
      intro hnd
      rw [List.flatten_cons, List.map_append, List.nodup_append] at hnd
      rw [List.map_cons, List.flatten_cons, List.flatten_cons]
      by_cases hb : ∃ e ∈ b, (e.id == i) = true
      · obtain ⟨e, heb, hei⟩ := hb
        have happ : List.eraseP (fun e => e.id == i) (b ++ bs.flatten) =
            List.eraseP (fun e => e.id == i) b ++ bs.flatten := by
          refine List.eraseP_append_left ?_ _ heb
          exact hei
        rw [happ]
        have hno : ∀ x ∈ bs.flatten, ¬(x.id == i) = true := by
          intro x hx hxi
          have hxe : x.id = e.id := by
            have h1 : (x.id == i) = true := hxi
            have h2 : (e.id == i) = true := hei
            rw [beq_iff_eq] at h1 h2
            omega
          exact (List.disjoint_left.mp hnd.2.2)
            (List.mem_map_of_mem Elem.id heb)
            (hxe ▸ List.mem_map_of_mem Elem.id hx)
        have hmap : bs.map (fun b' => b'.eraseP (fun e => e.id == i)) = bs := by
          have := List.map_congr_left (l := bs)
            (f := fun b' => b'.eraseP (fun e => e.id == i)) (g := id) ?_
          · simpa using this
          · intro b' hb'
            exact List.eraseP_of_forall_not
              (fun a ha => hno a (List.mem_flatten.mpr ⟨b', hb', ha⟩))
        rw [hmap]
      · push_neg at hb
        have hforall : ∀ e ∈ b, ¬(e.id == i) = true := by
          intro e he
          simpa using hb e he
        rw [List.eraseP_of_forall_not hforall,
            List.eraseP_append_right _ hforall, ih hnd.2.1]

theorem invU_mk (bs : List (List (Elem V))) (l : List (Elem V))
    (w : Nat → Nat) (n : Nat) (h1 : (bs.flatten).Perm l)
    (h2 : ((bs.flatten).map Elem.id).Nodup)
    (h3 : ∀ e ∈ bs.flatten, e.id < n) :
    InvU (⟨bs, l, w, n⟩ : AgedUnordered V) :=
  ⟨h1, h2, h3⟩

theorem erase_iterU_inv {c c' : AgedUnordered V} (hI : InvU c) (i : Nat)
    (h : AgedUnordered.erase_iter i c = some c') : InvU c' := by
  obtain ⟨hperm, hnd, hbnd⟩ := hI
  rw [AgedUnordered.erase_iter] at h
  split at h
  · cases h
  · rename_i p hf
    injection h with h; subst h
    have hpc : p ∈ c.buckets.flatten := List.mem_of_find?_eq_some hf
    have hpid : p.id = i := by
      have := List.find?_some hf
      simpa using this
    have hpl : p ∈ c.list := hperm.mem_iff.mp hpc
    have hlnd : (c.list.map Elem.id).Nodup :=
      ((hperm.map Elem.id).nodup_iff).mp hnd
    subst hpid
    have hflat : (c.buckets.map
        (fun b => b.eraseP (fun e => e.id == p.id))).flatten =
        (c.buckets.flatten).eraseP (fun e => e.id == p.id) :=
      flatten_map_eraseP p.id c.buckets hnd
    refine invU_mk _ _ _ _ ?_ ?_ ?_
    · rw [hflat, eraseP_id_eq_erase p _ hpc hnd,
          eraseP_id_eq_erase p c.list hpl hlnd]
      exact hperm.erase p
    · rw [hflat, eraseP_id_eq_erase p _ hpc hnd]
      exact List.Sublist.nodup
        (List.Sublist.map Elem.id (List.erase_sublist p _)) hnd
    · intro e he
      rw [hflat, eraseP_id_eq_erase p _ hpc hnd] at he
      exact hbnd e (List.mem_of_mem_erase he)

theorem filter_not_rem_ids (rem : List (Elem V)) :
    ∀ (pre suf : List (Elem V)),
      ((pre ++ rem ++ suf).map Elem.id).Nodup →
      (pre ++ rem ++ suf).filter
        (fun e => !rem.any (fun p => p.id == e.id)) = pre ++ suf := by
  intro pre suf hnd
  rw [List.filter_append, List.filter_append]
  rw [List.append_assoc, List.map_append, List.nodup_append] at hnd
  rw [List.map_append, List.nodup_append] at hnd
  have hpre : pre.filter
      (fun e => !rem.any (fun p => p.id == e.id)) = pre := by
    rw [List.filter_eq_self]
    intro e he
    rw [Bool.not_eq_true', List.any_eq_false]
    intro p hp hpe
    rw [beq_iff_eq] at hpe
    refine (List.disjoint_left.mp hnd.2.2)
      (List.mem_map_of_mem Elem.id he) ?_
    exact List.mem_append.mpr
      (Or.inl (hpe ▸ List.mem_map_of_mem Elem.id hp))
  have hrem : rem.filter
      (fun e => !rem.any (fun p => p.id == e.id)) = [] := by
    rw [List.filter_eq_nil_iff]
    intro e he
    have hany : rem.any (fun p => p.id == e.id) = true :=
      List.any_eq_true.mpr ⟨e, he, by simp⟩
    simp [hany]
  have hsuf : suf.filter
      (fun e => !rem.any (fun p => p.id == e.id)) = suf := by
    rw [List.filter_eq_self]
    intro e he
    rw [Bool.not_eq_true', List.any_eq_false]
    intro p hp hpe
    rw [beq_iff_eq] at hpe
    refine (List.disjoint_left.mp hnd.2.1.2.2)
      (List.mem_map_of_mem Elem.id hp) ?_
    exact hpe ▸ List.mem_map_of_mem Elem.id he
  rw [hpre, hrem, hsuf, List.append_nil]

theorem erase_keyU_inv {c : AgedUnordered V} {r : AgedUnordered V × Nat}
    (hI : InvU c) (k : K)
    (h : AgedUnordered.erase_key hashF eqK keyOf k c = some r) :
    InvU r.1 := by
  obtain ⟨hperm, hnd, hbnd⟩ := hI
  rw [AgedUnordered.erase_key] at h
  split at h
  · injection h with h; subst h
    exact ⟨hperm, hnd, hbnd⟩
  · rename_i e0 hf0
    split at h
    · cases h
    · rename_i i hfi
      split at h
      · cases h
      · rename_i pr rem suf hr
        injection h with h; subst h
        have hsplit : AgedUnordered.joinAll c =
            (AgedUnordered.joinAll c).take i ++ (rem ++ suf) := by
          conv_lhs => rw [← List.take_append_drop i (AgedUnordered.joinAll c)]
          rw [eraseRun_eq_append hr]
        have hnd2 : (((AgedUnordered.joinAll c).take i ++ rem ++ suf).map
            Elem.id).Nodup := by
          rw [List.append_assoc, ← hsplit]; exact hnd
        have hpermL : c.list.Perm
            ((AgedUnordered.joinAll c).take i ++ rem ++ suf) := by
          rw [List.append_assoc, ← hsplit]; exact hperm.symm
        have hflt : (c.buckets.map (fun b =>
            b.filter (fun e => !rem.any (fun p => p.id == e.id)))).flatten =
            (AgedUnordered.joinAll c).take i ++ suf := by
          rw [← List.filter_flatten]
          rw [AgedUnordered.joinAll] at hsplit
          conv_lhs => rw [hsplit]
          rw [← List.append_assoc] at hsplit ⊢
          exact filter_not_rem_ids rem _ suf hnd2
        refine ⟨?_, ?_, ?_⟩
        · rw [AgedUnordered.joinAll]
          dsimp only
          rw [hflt]
          exact (unlinkAll_perm rem _ suf c.list hnd2 hpermL).symm
        · rw [AgedUnordered.joinAll]
          dsimp only
          rw [hflt]
          have hsub : ((AgedUnordered.joinAll c).take i ++ suf).Sublist
              (AgedUnordered.joinAll c) := by
            conv_rhs => rw [hsplit]
            exact List.Sublist.append_left
              (List.sublist_append_right rem suf) _
          exact List.Sublist.nodup (List.Sublist.map Elem.id hsub) hnd
        · intro e he
          rw [AgedUnordered.joinAll] at he
          dsimp only at he ⊢
          rw [hflt] at he
          have hsub : ((AgedUnordered.joinAll c).take i ++ suf).Sublist
              (AgedUnordered.joinAll c) := by
            conv_rhs => rw [hsplit]
            exact List.Sublist.append_left
              (List.sublist_append_right rem suf) _
          exact hbnd e (hsub.mem he)

theorem touch_iterU_inv {c c' : AgedUnordered V} (hI : InvU c)
    (i now : Nat)
    (h : AgedUnordered.touch_iter i now c = some c') : InvU c' := by
  obtain ⟨hperm, hnd, hbnd⟩ := hI
  rw [AgedUnordered.touch_iter] at h
  split at h
  · cases h
  · rename_i e hf
    injection h with h; subst h
    have hel : e ∈ c.list := List.mem_of_find?_eq_some hf
    have heid : e.id = i := by
      have := List.find?_some hf
      simpa using this
    have hlnd : (c.list.map Elem.id).Nodup :=
      ((hperm.map Elem.id).nodup_iff).mp hnd
    subst heid
    refine ⟨?_, hnd, hbnd⟩
    rw [eraseP_id_eq_erase e c.list hel hlnd]
    exact hperm.trans (erase_tail_perm hel).symm

theorem touch_keyU_inv {c : AgedUnordered V} {r : AgedUnordered V × Nat}
    (hI : InvU c) (k : K) (now : Nat)
    (h : AgedUnordered.touch_key hashF eqK keyOf k now c = some r) :
    InvU r.1 := by
  rw [AgedUnordered.touch_key] at h
  rw [Option.map_eq_some'] at h
  obtain ⟨st, hst, hr⟩ := h
  subst hr
  exact foldlM_option_preserve InvU _
    (fun s a s' hP hf => touch_iterU_inv hP a.id now hf) _ c st hI hst

theorem clearU_inv (c : AgedUnordered V) :
    InvU (AgedUnordered.clear c) := by
  exact ⟨List.Perm.refl _, List.nodup_nil, by intro e he; cases he⟩

theorem insert_unchecked_uniqueU_inv {c : AgedUnordered V}
    (hI : InvU c) (hpos : 0 < c.buckets.length) (v : V) (now : Nat) :
    InvU (AgedUnordered.insert_unchecked_unique hashF eqK keyOf v now c).1 ∧
      0 < (AgedUnordered.insert_unchecked_unique
        hashF eqK keyOf v now c).1.buckets.length := by
  rw [AgedUnordered.insert_unchecked_unique]
  split
  · exact ⟨hI, hpos⟩
  · refine ⟨commitU_inv eqK keyOf hI _ (Nat.mod_lt _ hpos) v _, ?_⟩
    dsimp only
    rw [List.length_set]
    exact hpos

theorem insert_unchecked_multiU_inv {c : AgedUnordered V}
    (hI : InvU c) (hpos : 0 < c.buckets.length) (v : V) (now : Nat) :
    InvU (AgedUnordered.insert_unchecked_multi hashF eqK keyOf v now c).1 ∧
      0 < (AgedUnordered.insert_unchecked_multi
        hashF eqK keyOf v now c).1.buckets.length := by
  rw [AgedUnordered.insert_unchecked_multi]
  refine ⟨commitU_inv eqK keyOf hI _ (Nat.mod_lt _ hpos) v _, ?_⟩
  dsimp only
  rw [List.length_set]
  exact hpos

theorem maybe_rehash_buckets_pos' (a : Nat) {c : AgedUnordered V}
    (hpos : 0 < c.buckets.length) :
    0 < (AgedUnordered.maybe_rehash hashF keyOf a c).buckets.length := by
  rw [AgedUnordered.maybe_rehash]
  split
  · exact rehashTo_buckets_pos hashF keyOf _ (suggested_pos _) c
  · exact hpos

theorem assign_uniqueU_inv {c : AgedUnordered V} (vs : List V)
    (now : Nat) :
    InvU (AgedUnordered.assign_unique hashF eqK keyOf vs now c) := by
  rw [AgedUnordered.assign_unique]
  have h0 : InvU (⟨List.replicate 3 [], [], c.whens, c.nextId⟩ :
      AgedUnordered V) := by
    refine ⟨?_, ?_, ?_⟩
    · simp [AgedUnordered.joinAll]
    · simp [AgedUnordered.joinAll]
    · intro e he
      simp [AgedUnordered.joinAll] at he
  have h1 := maybe_rehash_inv hashF keyOf vs.length h0
  have h1p : 0 < (AgedUnordered.maybe_rehash hashF keyOf vs.length
      (⟨List.replicate 3 [], [], c.whens, c.nextId⟩ :
        AgedUnordered V)).buckets.length :=
    maybe_rehash_buckets_pos' hashF keyOf vs.length (by simp)
  exact (foldl_preserve
    (fun s => InvU s ∧ 0 < s.buckets.length) _
    (fun s v hP =>
      insert_unchecked_uniqueU_inv hashF eqK keyOf hP.1 hP.2 v now)
    vs _ ⟨h1, h1p⟩).1

theorem assign_multiU_inv {c : AgedUnordered V} (vs : List V)
    (now : Nat) :
    InvU (AgedUnordered.assign_multi hashF eqK keyOf vs now c) := by
  rw [AgedUnordered.assign_multi]
  have h0 : InvU (⟨List.replicate 3 [], [], c.whens, c.nextId⟩ :
      AgedUnordered V) := by
    refine ⟨?_, ?_, ?_⟩
    · simp [AgedUnordered.joinAll]
    · simp [AgedUnordered.joinAll]
    · intro e he
      simp [AgedUnordered.joinAll] at he
  have h1 := maybe_rehash_inv hashF keyOf vs.length h0
  have h1p : 0 < (AgedUnordered.maybe_rehash hashF keyOf vs.length
      (⟨List.replicate 3 [], [], c.whens, c.nextId⟩ :
        AgedUnordered V)).buckets.length :=
    maybe_rehash_buckets_pos' hashF keyOf vs.length (by simp)
  exact (foldl_preserve
    (fun s => InvU s ∧ 0 < s.buckets.length) _
    (fun s v hP =>
      insert_unchecked_multiU_inv hashF eqK keyOf hP.1 hP.2 v now)
    vs _ ⟨h1, h1p⟩).1

theorem rehash_inv (count : Nat) {c : AgedUnordered V} (hI : InvU c) :
    InvU (AgedUnordered.rehash hashF keyOf count c) := by
  obtain ⟨hperm, hnd, hbnd⟩ := hI
  rw [AgedUnordered.rehash]
  by_cases hpos : 0 < max count (AgedUnordered.size c)
  · have hp := rehashTo_flatten_perm hashF keyOf _ hpos c
    refine ⟨?_, ?_, ?_⟩
    · rw [rehashTo_list]
      exact hp.trans hperm
    · exact ((hp.map Elem.id).nodup_iff).mpr hnd
    · intro e he
      rw [rehashTo_nextId]
      exact hbnd e (hp.mem_iff.mp he)
  · have hsz : AgedUnordered.size c = 0 := by
      rw [AgedUnordered.size]
      rw [AgedUnordered.size] at hpos
      omega
    have hcnt : count = 0 := by omega
    have hempty : AgedUnordered.joinAll c = [] := by
      rw [AgedUnordered.size] at hsz
      exact List.length_eq_zero.mp hsz
    have hlist : c.list = [] := by
      have h2 := hperm
      rw [hempty] at h2
      exact h2.symm.eq_nil
    rw [AgedUnordered.rehashTo]
    split
    · exact ⟨hperm, hnd, hbnd⟩
    · refine invU_mk _ _ _ _ ?_ ?_ ?_ <;>
        simp [AgedUnordered.redistribute, hempty, hlist, hsz, hcnt]

theorem applyU_inv {op : UOp K V} {c c' : AgedUnordered V}
    (hg : GoodU op) (hI : InvU c)
    (h : applyU hashF eqK keyOf op c = some c') : InvU c' := by
  cases op with
  | insU v now =>
      injection h with h; subst h
      exact insert_uniqueU_inv hashF eqK keyOf hI v now
  | insM v now =>
      injection h with h; subst h
      exact insert_multiU_inv hashF eqK keyOf hI v now
  | empU v now =>
      injection h with h; subst h
      exact insert_uniqueU_inv hashF eqK keyOf hI v now
  | empM v now =>
      injection h with h; subst h
      exact insert_multiU_inv hashF eqK keyOf hI v now
  | idxOp k d now =>
      injection h with h; subst h
      exact opIndexU_inv hashF eqK keyOf hI k d now
  | eraseIt i => exact erase_iterU_inv hI i h
  | eraseK k =>
      simp only [applyU, Option.map_eq_some'] at h
      obtain ⟨r, hr, hr'⟩ := h
      subst hr'
      exact erase_keyU_inv hashF eqK keyOf hI k hr
  | touchIt i now => exact touch_iterU_inv hI i now h
  | touchK k now =>
      simp only [applyU, Option.map_eq_some'] at h
      obtain ⟨r, hr, hr'⟩ := h
      subst hr'
      exact touch_keyU_inv hashF eqK keyOf hI k now hr
  | clearOp => injection h with h; subst h; exact clearU_inv c
  | assignU vs now =>
      injection h with h; subst h
      exact assign_uniqueU_inv hashF eqK keyOf vs now
  | assignM vs now =>
      injection h with h; subst h
      exact assign_multiU_inv hashF eqK keyOf vs now
  | rehashOp count =>
      injection h with h; subst h
      exact rehash_inv hashF keyOf count hI
  | reserveOp count =>
      injection h with h; subst h
      exact rehash_inv hashF keyOf count hI
  | swapWith o =>
      injection h with h; subst h; exact hg

theorem runU_aux :
    ∀ (us : List (UOp K V)) (c0 c : AgedUnordered V),
      (∀ op ∈ us, GoodU op) → InvU c0 →
      us.foldlM (fun c op => applyU hashF eqK keyOf op c) c0 = some c →
      InvU c := by
  intro us
  induction us with
  | nil =>
      intro c0 c _ hI h
      simp only [List.foldlM_nil] at h
      injection h with h; subst h; exact hI
  | cons op us ih =>
      intro c0 c hg hI h
      rw [List.foldlM_cons] at h
      cases hx : applyU hashF eqK keyOf op c0 with
      | none => rw [hx] at h; cases h
      | some c1 =>
          rw [hx] at h
          exact ih c1 c (fun o ho => hg o (by simp [ho]))
            (applyU_inv hashF eqK keyOf (hg op (by simp)) hI hx) h

theorem runU_inv {us : List (UOp K V)} {c : AgedUnordered V}
    (hg : ∀ op ∈ us, GoodU op)
    (h : runU hashF eqK keyOf us = some c) : InvU c := by
  refine runU_aux hashF eqK keyOf us (AgedUnordered.empty V) c hg ?_ h
  refine ⟨?_, ?_, ?_⟩ <;>
    simp [AgedUnordered.empty, AgedUnordered.joinAll]

end UnorderedInv

section Claims

/-- C1: for every sequence of public operations (insert, emplace,
`operator[]`, erase, touch, clear, swap, assignment — plus, for the hash
container, rehash and reserve) executed from an empty ordered or
unordered container, at every point where the operations are defined the
associative index and the temporal list hold exactly the same nodes and
the size of the associative index equals the length of the temporal
list.  Swap partners must themselves be well-formed containers
(`GoodO`/`GoodU`); operations whose C++ counterpart has undefined
behaviour (invalid iterators, the `end()` dereference inside
`erase(key)`) yield no state and are excluded by `runO`/`runU` returning
`none`. -/
theorem dual_index_invariant {K V : Type} [DecidableEq V]
    (lt : K → K → Bool) (hashF : K → Nat) (eqK : K → K → Bool)
    (keyOf : V → K) (os : List (OOp K V)) (us : List (UOp K V))
    (c : AgedOrdered V) (d : AgedUnordered V)
    (hgo : ∀ op ∈ os, GoodO op) (hgu : ∀ op ∈ us, GoodU op)
    (hc : runO lt keyOf os = some c)
    (hd : runU hashF eqK keyOf us = some d) :
    (c.cont.Perm c.list ∧ AgedOrdered.size c = c.list.length) ∧
      ((AgedUnordered.joinAll d).Perm d.list ∧
        AgedUnordered.size d = d.list.length) := by
  have h1 := runO_inv lt keyOf hgo hc
  have h2 := runU_inv hashF eqK keyOf hgu hd
  exact ⟨⟨h1.1, h1.1.length_eq⟩, ⟨h2.1, h2.1.length_eq⟩⟩

/-- Comparator, hash, equality and key extraction instantiated at `Nat`
for the concrete witnesses: `std::less<int>`, an identity hash,
`std::equal_to<int>` and the set-shaped `extract`. -/
def ltB : Nat → Nat → Bool := fun a b => decide (a < b)

/-- Identity hash / set-shaped key extraction at `Nat`. -/
def idF : Nat → Nat := fun v => v

/-- `std::equal_to<int>`. -/
def eqB : Nat → Nat → Bool := fun a b => a == b

/-- Concrete ordered operation sequence for the C1 witness. -/
def opsOW : List (OOp Nat Nat) :=
  [OOp.insU 5 1, OOp.insM 3 2, OOp.insU 5 3, OOp.touchK 3 4,
   OOp.eraseK 3, OOp.idxOp 9 9 5, OOp.eraseIt 0,
   OOp.swapWith ⟨[⟨7, 4⟩], [⟨7, 4⟩], fun _ => 0, 8⟩, OOp.clearOp,
   OOp.assignM [2, 2, 1] 6]

/-- Concrete hash-container operation sequence for the C1 witness. -/
def opsUW : List (UOp Nat Nat) :=
  [UOp.insU 1 1, UOp.insU 2 2, UOp.insM 1 3, UOp.touchK 1 4,
   UOp.rehashOp 11, UOp.eraseIt 2, UOp.clearOp, UOp.insU 7 5,
   UOp.swapWith ⟨[[], [⟨3, 9⟩], []], [⟨3, 9⟩], fun _ => 0, 4⟩,
   UOp.assignU [4, 5, 6] 7]

/-- Witness for C1: a concrete mixed operation sequence on each
container variant reaches a state where both indices agree. -/
theorem dual_index_invariant_witness :
    ∃ (c : AgedOrdered Nat) (d : AgedUnordered Nat),
      runO ltB idF opsOW = some c ∧ runU idF eqB idF opsUW = some d ∧
      (c.cont.Perm c.list ∧ AgedOrdered.size c = c.list.length) ∧
      ((AgedUnordered.joinAll d).Perm d.list ∧
        AgedUnordered.size d = d.list.length) := by
  cases hc : runO ltB idF opsOW with
  | none =>
      have hs : (runO ltB idF opsOW).isSome = true := by decide
      rw [hc] at hs
      cases hs
  | some c =>
      cases hd : runU idF eqB idF opsUW with
      | none =>
          have hs : (runU idF eqB idF opsUW).isSome = true := by decide
          rw [hd] at hs
          cases hs
      | some d =>
          exact ⟨c, d, rfl, rfl,
            dual_index_invariant ltB idF eqB idF opsOW opsUW c d
              (by decide) (by decide) hc hd⟩

/-- Ordered unique set holding 1 and 2 (inserted at times 0 and 1),
reached through `insert`. -/
def setOneTwo : AgedOrdered Nat :=
  (AgedOrdered.insert_unique ltB idF 2 1
    (AgedOrdered.insert_unique ltB idF 1 0 (AgedOrdered.empty Nat)).1).1

/-- Unordered multiset holding two nodes with key 7 (inserted at times 1
and 2), reached through `insert`. -/
def multiSevenSeven : AgedUnordered Nat :=
  (AgedUnordered.insert_multi idF eqB idF 7 2
    (AgedUnordered.insert_multi idF eqB idF 7 1
      (AgedUnordered.empty Nat)).1).1

/-- C3 (code bug): `erase(k)` computes its loop-exit flag from the
successor node before unlinking.  On the ordered container the flag is
`compare(key(p), key(succ))`, so erasing a key equivalent to the last
tree node reads `extract(end()->value)` — out of bounds, modelled
`none`: on the set holding 1 and 2, `erase 2` is undefined, while
`erase 1` removes exactly node 1 returning 1 and `erase 3` removes
nothing returning 0.  On the hash container `m_config (*p, key)`
resolves to the stored *equality*, so the loop stops after one removal
exactly when another equivalent node follows: on the multiset holding
7 twice, `erase 7` removes a single node and returns 1 instead of
removing both and returning 2. -/
theorem erase_key_failing_eval :
    (AgedOrdered.erase_key ltB idF 2 setOneTwo).isNone = true ∧
    (AgedOrdered.erase_key ltB idF 1 setOneTwo).map
      (fun r => (r.1.cont.map Elem.value, r.1.list.map Elem.value, r.2)) =
      some ([2], [2], 1) ∧
    (AgedOrdered.erase_key ltB idF 3 setOneTwo).map
      (fun r => (r.1.cont.map Elem.value, r.2)) = some ([1, 2], 0) ∧
    (AgedUnordered.joinAll multiSevenSeven).map Elem.value = [7, 7] ∧
    (AgedUnordered.erase_key idF eqB idF 7 multiSevenSeven).map
      (fun r => ((AgedUnordered.joinAll r.1).map Elem.value,
        r.1.list.map Elem.value, r.2)) = some ([7], [7], 1) := by
  refine ⟨?_, ?_, ?_, ?_, ?_⟩ <;> decide

/-- Unordered unique set built by inserting the keys 1..100 (each at the
time equal to its key) with the default `max_load_factor` of 1.0: the
scenario of spec §8 S4. -/
def scenarioS4 : AgedUnordered Nat :=
  ((List.range 100).map (fun i => i + 1)).foldl
    (fun c k => (AgedUnordered.insert_unique idF eqB idF k k c).1)
    (AgedUnordered.empty Nat)

/-- C6: rehashing — whether performed by `Buckets::rehash` directly,
through the public `rehash`/`reserve`, or through `maybe_rehash` before
a size-growing insertion — relinks nodes between buckets but leaves the
temporal list exactly unchanged; and after inserting keys 1..100 into an
unordered unique set with `max_load_factor` 1.0 (which grows the bucket
array from 3 to 193 buckets along the way), temporal traversal yields
1, ..., 100 in insertion order. -/
theorem rehash_preserves_temporal :
    (∀ (K V : Type) [DecidableEq V] (hashF : K → Nat) (keyOf : V → K)
        (n a : Nat) (c : AgedUnordered V),
      (AgedUnordered.rehashTo hashF keyOf n c).list = c.list ∧
      (AgedUnordered.rehash hashF keyOf n c).list = c.list ∧
      (AgedUnordered.reserve hashF keyOf n c).list = c.list ∧
      (AgedUnordered.maybe_rehash hashF keyOf a c).list = c.list) ∧
    scenarioS4.list.map Elem.value = (List.range 100).map (fun i => i + 1) ∧
    scenarioS4.buckets.length = 193 := by
  refine ⟨?_, by decide, by decide⟩
  intro K V _ hashF keyOf n a c
  exact ⟨rehashTo_list hashF keyOf n c, rehashTo_list hashF keyOf _ c,
    rehashTo_list hashF keyOf _ c, maybe_rehash_list hashF keyOf a c⟩

/-- Map-shaped key extraction (`extract` of the map shape: the first
component of the pair). -/
def fstN : Nat × Nat → Nat := Prod.fst

/-- Ordered unique map holding the single entry with key 1 and mapped
value 10. -/
def mapOneTen : AgedOrdered (Nat × Nat) :=
  (AgedOrdered.insert_unique ltB fstN (1, 10) 0
    (AgedOrdered.empty (Nat × Nat))).1

/-- Ordered unique map holding the single entry with key 1 and mapped
value 20. -/
def mapOneTwenty : AgedOrdered (Nat × Nat) :=
  (AgedOrdered.insert_unique ltB fstN (1, 20) 0
    (AgedOrdered.empty (Nat × Nat))).1

/-- Counterexample to C7: `operator==` compares `extract(lhs)` against
`extract(rhs)`, i.e. only the keys, also for maps.  The two maps
{1 ↦ 10} and {1 ↦ 20} have equal sizes and keys but different mapped
values, yet `operator==` yields `true`, refuting "a == b exactly when
... pairwise-equal keys and pairwise-equal mapped values". -/
theorem eq_ignores_mapped_counterexample :
    AgedOrdered.contEq fstN mapOneTen mapOneTwenty = true ∧
    mapOneTen.cont.map (fun e => e.value.2) ≠
      mapOneTwenty.cont.map (fun e => e.value.2) ∧
    mapOneTen.cont.map (fun e => e.value.1) =
      mapOneTwenty.cont.map (fun e => e.value.1) ∧
    AgedOrdered.size mapOneTen = AgedOrdered.size mapOneTwenty := by
  refine ⟨?_, ?_, ?_, ?_⟩ <;> decide

theorem zip_all_keys_iff {K V : Type} [DecidableEq K] (keyOf : V → K) :
    ∀ (l1 l2 : List (Elem V)), l1.length = l2.length →
      (((l1.zip l2).all
        (fun pr => decide (keyOf pr.1.value = keyOf pr.2.value))) = true ↔
        l1.map (fun e => keyOf e.value) = l2.map (fun e => keyOf e.value)) := by
  intro l1
  induction l1 with
  | nil =>
      intro l2 h
      cases l2 with
      | nil => simp
      | cons y ys => simp at h
  | cons x xs ih =>
      intro l2 h
      cases l2 with
      | nil => simp at h
      | cons y ys =>
          simp only [List.zip_cons_cons, List.all_cons, Bool.and_eq_true,
            decide_eq_true_eq, List.map_cons, List.cons.injEq]
          rw [ih ys (by simpa using h)]

/-- C7 as the code has it: equality of two ordered containers holds
exactly when the sizes agree and the associative traversals carry
pairwise-equal *keys*; mapped values do not participate. -/
theorem eq_iff_sizes_and_keys {K V : Type} [DecidableEq K]
    [DecidableEq V] (keyOf : V → K) (a b : AgedOrdered V) :
    AgedOrdered.contEq keyOf a b = true ↔
      (AgedOrdered.size a = AgedOrdered.size b ∧
        a.cont.map (fun e => keyOf e.value) =
          b.cont.map (fun e => keyOf e.value)) := by
  rw [AgedOrdered.contEq, Bool.and_eq_true, decide_eq_true_eq]
  constructor
  · rintro ⟨h1, h2⟩
    exact ⟨h1, (zip_all_keys_iff keyOf a.cont b.cont h1).mp h2⟩
  · rintro ⟨h1, h2⟩
    exact ⟨h1, (zip_all_keys_iff keyOf a.cont b.cont h1).mpr h2⟩

theorem find?_middle {V : Type} (p : Elem V → Bool) (l₁ l₂ : List (Elem V))
    (e : Elem V) (hp : p e = true) (hl : ∀ x ∈ l₁, p x = false) :
    List.find? p (l₁ ++ e :: l₂) = some e := by
  rw [List.find?_append]
  have h1 : List.find? p l₁ = none :=
    List.find?_eq_none.mpr (fun x hx => by simp [hl x hx])
  rw [h1, List.find?_cons_of_pos _ hp]
  rfl

/-- C9: on a unique ordered map, `at(k)` raises `out_of_range`
(`Except.error`) exactly when no node's key is equivalent to `k`, and
returns the mapped value of the (first) equivalent node otherwise.  The
source performs no mutation on either path, which the embedding
captures by `atKey` being a pure function of the container state. -/
theorem at_raises_on_missing {K M : Type} (lt : K → K → Bool)
    (c : AgedOrdered (K × M)) (k : K) :
    ((∀ e ∈ c.cont, equivK lt k e.value.1 = false) →
      AgedOrdered.atKey lt c k = Except.error ()) ∧
    (∀ (l₁ l₂ : List (Elem (K × M))) (e : Elem (K × M)),
      c.cont = l₁ ++ e :: l₂ → equivK lt k e.value.1 = true →
      (∀ x ∈ l₁, equivK lt k x.value.1 = false) →
      AgedOrdered.atKey lt c k = Except.ok e.value.2) := by
  constructor
  · intro habs
    rw [AgedOrdered.atKey]
    have hnone : c.cont.find? (fun e => equivK lt k e.value.1) = none :=
      List.find?_eq_none.mpr (fun x hx => by simp [habs x hx])
    rw [hnone]
  · intro l₁ l₂ e hcont hek hl
    rw [AgedOrdered.atKey, hcont, find?_middle _ l₁ l₂ e hek hl]

/-- Ordered unique map holding 1 ↦ 10 and 2 ↦ 20, for the C9 witness
(spec scenario S6). -/
def mapS6 : AgedOrdered (Nat × Nat) :=
  (AgedOrdered.insert_unique ltB fstN (2, 20) 1
    (AgedOrdered.insert_unique ltB fstN (1, 10) 0
      (AgedOrdered.empty (Nat × Nat))).1).1

/-- Witness for C9: on the map {1 ↦ 10, 2 ↦ 20}, `at(3)` raises and
`at(1)` returns 10. -/
theorem at_raises_on_missing_witness :
    AgedOrdered.atKey ltB mapS6 3 = Except.error () ∧
    AgedOrdered.atKey ltB mapS6 1 = Except.ok 10 := by
  constructor
  · exact (at_raises_on_missing ltB mapS6 3).1 (by decide)
  · exact (at_raises_on_missing ltB mapS6 1).2 []
      [⟨1, (2, 20)⟩] ⟨0, (1, 10)⟩ (by decide) (by decide) (by decide)

/-- C4: `touch(pos)` stamps the designated node's `when` with
`clock().now()`, unlinks it from its position in the temporal list and
relinks it at the tail, leaving the relative order of all other nodes
and the whole associative index (tree traversal / bucket vector, hence
membership, positions and size) unchanged.  Stated for both the ordered
and the unordered container. -/
theorem touch_moves_to_tail {V : Type} [DecidableEq V]
    (c : AgedOrdered V) (d : AgedUnordered V) (e f : Elem V)
    (l₁ l₂ m₁ m₂ : List (Elem V)) (now now' : Nat)
    (hc : c.list = l₁ ++ e :: l₂) (hce : ∀ x ∈ l₁, x.id ≠ e.id)
    (hd : d.list = m₁ ++ f :: m₂) (hdf : ∀ x ∈ m₁, x.id ≠ f.id) :
    AgedOrdered.touch_iter e.id now c =
      some ⟨c.cont, (l₁ ++ l₂) ++ [e], c.stamp e.id now, c.nextId⟩ ∧
    AgedUnordered.touch_iter f.id now' d =
      some ⟨d.buckets, (m₁ ++ m₂) ++ [f], d.stamp f.id now', d.nextId⟩ := by
  constructor
  · rw [AgedOrdered.touch_iter, hc]
    have hfind : List.find? (fun x => x.id == e.id) (l₁ ++ e :: l₂) =
        some e :=
      find?_middle _ l₁ l₂ e (by simp)
        (fun x hx => by simp [hce x hx])
    have herase : List.eraseP (fun x => x.id == e.id) (l₁ ++ e :: l₂) =
        l₁ ++ l₂ := by
      rw [List.eraseP_append_right _ (fun x hx => by simp [hce x hx]),
        List.eraseP_cons_of_pos (by simp)]
    rw [hfind, herase]
  · rw [AgedUnordered.touch_iter, hd]
    have hfind : List.find? (fun x => x.id == f.id) (m₁ ++ f :: m₂) =
        some f :=
      find?_middle _ m₁ m₂ f (by simp)
        (fun x hx => by simp [hdf x hx])
    have herase : List.eraseP (fun x => x.id == f.id) (m₁ ++ f :: m₂) =
        m₁ ++ m₂ := by
      rw [List.eraseP_append_right _ (fun x hx => by simp [hdf x hx]),
        List.eraseP_cons_of_pos (by simp)]
    rw [hfind, herase]

/-- Witness for C4: touching the middle node of a three-node temporal
list moves exactly it to the tail and re-stamps it, in both variants. -/
theorem touch_moves_to_tail_witness :
    AgedOrdered.touch_iter 1 9
        (⟨[⟨0, 5⟩, ⟨1, 6⟩, ⟨2, 7⟩], [⟨0, 5⟩, ⟨1, 6⟩, ⟨2, 7⟩],
          fun _ => 0, 3⟩ : AgedOrdered Nat) =
      some ⟨[⟨0, 5⟩, ⟨1, 6⟩, ⟨2, 7⟩], [⟨0, 5⟩, ⟨2, 7⟩] ++ [⟨1, 6⟩],
        AgedOrdered.stamp ⟨[⟨0, 5⟩, ⟨1, 6⟩, ⟨2, 7⟩],
          [⟨0, 5⟩, ⟨1, 6⟩, ⟨2, 7⟩], fun _ => 0, 3⟩ 1 9, 3⟩ ∧
    AgedUnordered.touch_iter 1 9
        (⟨[[⟨0, 5⟩], [⟨1, 6⟩], [⟨2, 7⟩]], [⟨0, 5⟩, ⟨1, 6⟩, ⟨2, 7⟩],
          fun _ => 0, 3⟩ : AgedUnordered Nat) =
      some ⟨[[⟨0, 5⟩], [⟨1, 6⟩], [⟨2, 7⟩]], [⟨0, 5⟩, ⟨2, 7⟩] ++ [⟨1, 6⟩],
        AgedUnordered.stamp ⟨[[⟨0, 5⟩], [⟨1, 6⟩], [⟨2, 7⟩]],
          [⟨0, 5⟩, ⟨1, 6⟩, ⟨2, 7⟩], fun _ => 0, 3⟩ 1 9, 3⟩ := by
  have h := touch_moves_to_tail
    (⟨[⟨0, 5⟩, ⟨1, 6⟩, ⟨2, 7⟩], [⟨0, 5⟩, ⟨1, 6⟩, ⟨2, 7⟩],
      fun _ => 0, 3⟩ : AgedOrdered Nat)
    (⟨[[⟨0, 5⟩], [⟨1, 6⟩], [⟨2, 7⟩]], [⟨0, 5⟩, ⟨1, 6⟩, ⟨2, 7⟩],
      fun _ => 0, 3⟩ : AgedUnordered Nat)
    ⟨1, 6⟩ ⟨1, 6⟩ [⟨0, 5⟩] [⟨2, 7⟩] [⟨0, 5⟩] [⟨2, 7⟩] 9 9
    rfl (by decide) rfl (by decide)
  exact h

/-- The constructors a `chronological_t` class body declares beyond its
user-provided default constructor, as the source text writes them:
whether the copy constructor and the move constructor carry
`= delete`. -/
structure DeclaredCtors where
  copyCtorDeleted : Bool
  moveCtorDeleted : Bool
deriving DecidableEq

/-- The `chronological_t` of the ordered container: both its copy and
its move constructor are written `= delete`
(aged_ordered_container.h lines 545-546). -/
def orderedChronological : DeclaredCtors := ⟨true, true⟩

/-- The `chronological_t` of the hash container: both its copy and its
move constructor are written `= delete`
(aged_unordered_container.h lines 718-719). -/
def unorderedChronological : DeclaredCtors := ⟨true, true⟩

/-- Whether `std::swap` can be instantiated at a class: its body
move-constructs a temporary from its first argument, so the class must
be MoveConstructible; a class whose move constructor is declared
`= delete` fails the requirement (overload resolution selects the
deleted constructor and the program is ill-formed). -/
def moveConstructible (c : DeclaredCtors) : Bool := !c.moveCtorDeleted

/-- The accessor members the ordered `config_t` declares
(aged_ordered_container.h lines 271-392, plus its public `clock`
field). -/
def orderedConfigMembers : List String :=
  ["compare", "key_compare", "alloc", "clock"]

/-- The accessor members the unordered `config_t` declares
(aged_unordered_container.h lines 284-469, plus its public `clock`
field): a hasher and an equality predicate, but no comparator. -/
def unorderedConfigMembers : List String :=
  ["value_hash", "hash_function", "key_value_equal", "key_eq", "alloc",
   "clock"]

/-- The first `m_config` member both `swap_data` overloads of BOTH
headers read (`std::swap (m_config.key_compare(), ...)`,
aged_ordered_container.h lines 1506/1516, aged_unordered_container.h
lines 1941/1951). -/
def swapDataFirstMember : String := "key_compare"

/-- C8: `swap` performs no exchange at all, because it never compiles.
Both `swap` bodies execute
`std::swap (chronological, other.chronological)`
(aged_ordered_container.h line 1181, aged_unordered_container.h line
1532), and each container's `chronological_t` deletes its copy and move
constructors, so the type is not MoveConstructible and the call is
ill-formed on every instantiation; in addition, the unordered
`swap_data` called on the line before reads `m_config.key_compare()`, a
member the unordered `config_t` does not declare (the ordered one
does).  So the claimed exchange of contents, comparator / hasher /
equality, clock and (conditionally) allocator never happens. -/
theorem swap_never_instantiates :
    moveConstructible orderedChronological = false ∧
    moveConstructible unorderedChronological = false ∧
    swapDataFirstMember ∈ orderedConfigMembers ∧
    swapDataFirstMember ∉ unorderedConfigMembers := by
  refine ⟨rfl, rfl, ?_, ?_⟩ <;> decide

/-- Hash-placement well-formedness of an unordered container: every node
sits in the bucket its key's hash selects.  All reachable container
states satisfy it; `insert_check` relies on it when it probes only the
key's bucket. -/
def HashOk {K V : Type} (hashF : K → Nat) (keyOf : V → K)
    (d : AgedUnordered V) : Prop :=
  ∀ i < d.buckets.length, ∀ e ∈ AgedUnordered.bucketGet d i,
    AgedUnordered.bucketIdxK hashF d.buckets.length (keyOf e.value) = i

instance {K V : Type} [DecidableEq V] (hashF : K → Nat) (keyOf : V → K)
    (d : AgedUnordered V) : Decidable (HashOk hashF keyOf d) := by
  unfold HashOk; infer_instance

section HashOkLemmas

variable {K V : Type} [DecidableEq V]
variable (hashF : K → Nat) (eqK : K → K → Bool) (keyOf : V → K)

theorem redistribute_getD_hashOk (count : Nat) (hc : 0 < count) :
    ∀ (es : List (Elem V)) (acc : List (List (Elem V))),
      acc.length = count →
      (∀ i < count, ∀ e ∈ acc.getD i [],
        AgedUnordered.bucketIdxK hashF count (keyOf e.value) = i) →
      ∀ i < count, ∀ e ∈ ((es.foldl (fun bs e =>
          let i := AgedUnordered.bucketIdxK hashF count (keyOf e.value)
          bs.set i (bs.getD i [] ++ [e])) acc)).getD i [],
        AgedUnordered.bucketIdxK hashF count (keyOf e.value) = i := by
  intro es
  induction es with
  | nil => intro acc _ hacc; exact hacc
  | cons x xs ih =>
      intro acc hlen hacc
      rw [List.foldl_cons]
      have hjlt : AgedUnordered.bucketIdxK hashF count (keyOf x.value) <
          count := Nat.mod_lt _ hc
      refine ih _ (by rw [List.length_set, hlen]) ?_
      intro i hi e he
      rw [List.getD_eq_getElem?_getD, List.getElem?_set] at he
      by_cases hij : AgedUnordered.bucketIdxK hashF count (keyOf x.value) = i
      · rw [if_pos hij, if_pos (by omega)] at he
        simp only [Option.getD_some] at he
        rcases List.mem_append.mp he with h1 | h2
        · refine hacc i hi e ?_
          rw [← hij]
          exact h1
        · rcases List.mem_singleton.mp h2 with rfl
          exact hij
      · rw [if_neg hij] at he
        exact hacc i hi e (by rw [List.getD_eq_getElem?_getD]; exact he)

theorem getD_replicate_nil (count i : Nat) :
    (List.replicate count ([] : List (Elem V))).getD i [] = [] := by
  rw [List.getD_eq_getElem?_getD]
  rcases Nat.lt_or_ge i count with h | h
  · rw [List.getElem?_replicate]
    simp [h]
  · rw [List.getElem?_eq_none (by simpa using h)]
    rfl

theorem redistribute_hashOk (count : Nat) (hc : 0 < count)
    (es : List (Elem V)) :
    ∀ i < count, ∀ e ∈ (AgedUnordered.redistribute hashF keyOf count
        es).getD i [],
      AgedUnordered.bucketIdxK hashF count (keyOf e.value) = i := by
  rw [AgedUnordered.redistribute]
  refine redistribute_getD_hashOk hashF keyOf count hc es
    (List.replicate count []) (List.length_replicate count []) ?_
  intro i hi e he
  rw [getD_replicate_nil] at he
  cases he

theorem rehashTo_hashOk (n : Nat) (hn : 0 < n) {d : AgedUnordered V}
    (hOk : HashOk hashF keyOf d) :
    HashOk hashF keyOf (AgedUnordered.rehashTo hashF keyOf n d) := by
  rw [AgedUnordered.rehashTo]
  split
  · exact hOk
  · intro i hi e he
    have hlen : (AgedUnordered.redistribute hashF keyOf n
        (AgedUnordered.joinAll d)).length = n :=
      redistribute_length hashF keyOf n _
    dsimp only at hi he ⊢
    rw [hlen] at hi
    rw [AgedUnordered.bucketGet] at he
    dsimp only at he
    rw [hlen]
    exact redistribute_hashOk hashF keyOf n hn
      (AgedUnordered.joinAll d) i hi e he

theorem maybe_rehash_hashOk (a : Nat) {d : AgedUnordered V}
    (hOk : HashOk hashF keyOf d) :
    HashOk hashF keyOf (AgedUnordered.maybe_rehash hashF keyOf a d) := by
  rw [AgedUnordered.maybe_rehash]
  split
  · exact rehashTo_hashOk hashF keyOf _ (suggested_pos _) hOk
  · exact hOk

end HashOkLemmas

/-- C2: inserting a value whose key is already present into a
unique-variant container returns the existing node with `false` and
allocates nothing.  Ordered: `insert_check` finds the equivalent key and
the container is left exactly as it was.  Unordered: `maybe_rehash(1)`
runs first (it may relink buckets but preserves the node set, the
temporal list, the `when` map and the allocation counter), then the
probe of the key's bucket finds the equal key — for a hash-placement
well-formed container (`HashOk`, which every reachable state satisfies)
holding a node with an equal key of equal hash — so size, associative
contents and temporal order are unchanged and no node is allocated. -/
theorem insert_existing_key_noop {K V : Type} [DecidableEq V]
    (lt : K → K → Bool) (hashF : K → Nat) (eqK : K → K → Bool)
    (keyOf : V → K) (c : AgedOrdered V) (d : AgedUnordered V)
    (v vU : V) (now nowU : Nat) (e' : Elem V)
    (hc : ∃ e ∈ c.cont, equivK lt (keyOf v) (keyOf e.value) = true)
    (hOk : HashOk hashF keyOf d)
    (hmem : e' ∈ AgedUnordered.joinAll d)
    (heq : eqK (keyOf vU) (keyOf e'.value) = true)
    (hhash : hashF (keyOf vU) = hashF (keyOf e'.value)) :
    ((AgedOrdered.insert_unique lt keyOf v now c).1 = c ∧
     (AgedOrdered.insert_unique lt keyOf v now c).2.1 = false ∧
     (AgedOrdered.insert_unique lt keyOf v now c).2.2 ∈ c.cont ∧
     equivK lt (keyOf v)
       (keyOf (AgedOrdered.insert_unique lt keyOf v now c).2.2.value) =
         true) ∧
    ((AgedUnordered.insert_unique hashF eqK keyOf vU nowU d).1.list =
        d.list ∧
     (AgedUnordered.insert_unique hashF eqK keyOf vU nowU d).1.whens =
        d.whens ∧
     (AgedUnordered.insert_unique hashF eqK keyOf vU nowU d).1.nextId =
        d.nextId ∧
     (AgedUnordered.joinAll
        (AgedUnordered.insert_unique hashF eqK keyOf vU nowU d).1).Perm
          (AgedUnordered.joinAll d) ∧
     (AgedUnordered.insert_unique hashF eqK keyOf vU nowU d).2.1 =
        false ∧
     (AgedUnordered.insert_unique hashF eqK keyOf vU nowU d).2.2 ∈
        AgedUnordered.joinAll d ∧
     eqK (keyOf vU) (keyOf (AgedUnordered.insert_unique
        hashF eqK keyOf vU nowU d).2.2.value) = true) := by
  constructor
  · obtain ⟨e, hme, heqv⟩ := hc
    cases hf : c.cont.find?
        (fun x => equivK lt (keyOf v) (keyOf x.value)) with
    | none => exact absurd heqv (by simpa using List.find?_eq_none.mp hf e hme)
    | some a =>
        have hres : AgedOrdered.insert_unique lt keyOf v now c =
            (c, false, a) := by
          rw [AgedOrdered.insert_unique, hf]
        have hpa : equivK lt (keyOf v) (keyOf a.value) = true := by
          simpa using List.find?_some hf
        rw [hres]
        exact ⟨rfl, rfl, List.mem_of_find?_eq_some hf, hpa⟩
  · have hperm1 := maybe_rehash_flatten_perm hashF keyOf 1 d
    have hOk1 := maybe_rehash_hashOk hashF keyOf 1 hOk
    have hmem1 : e' ∈ AgedUnordered.joinAll
        (AgedUnordered.maybe_rehash hashF keyOf 1 d) :=
      hperm1.mem_iff.mpr hmem
    obtain ⟨b, hb, heb⟩ := List.mem_flatten.mp hmem1
    obtain ⟨j, hj, hbj⟩ := List.getElem_of_mem hb
    have hjb : AgedUnordered.bucketGet
        (AgedUnordered.maybe_rehash hashF keyOf 1 d) j = b := by
      rw [AgedUnordered.bucketGet, List.getD_eq_getElem _ _ hj, hbj]
    have hidx := hOk1 j hj e' (by rw [hjb]; exact heb)
    have hieq : AgedUnordered.bucketIdxK hashF
        (AgedUnordered.maybe_rehash hashF keyOf 1 d).buckets.length
        (keyOf vU) = j := by
      rw [AgedUnordered.bucketIdxK] at hidx ⊢
      rw [hhash]
      exact hidx
    have hebkt : e' ∈ AgedUnordered.bucketGet
        (AgedUnordered.maybe_rehash hashF keyOf 1 d)
        (AgedUnordered.bucketIdxK hashF
          (AgedUnordered.maybe_rehash hashF keyOf 1 d).buckets.length
          (keyOf vU)) := by
      rw [hieq, hjb]
      exact heb
    cases hf : (AgedUnordered.bucketGet
        (AgedUnordered.maybe_rehash hashF keyOf 1 d)
        (AgedUnordered.bucketIdxK hashF
          (AgedUnordered.maybe_rehash hashF keyOf 1 d).buckets.length
          (keyOf vU))).find?
        (fun x => eqK (keyOf vU) (keyOf x.value)) with
    | none =>
        exact absurd heq
          (by simpa using List.find?_eq_none.mp hf e' hebkt)
    | some a =>
        have hres : AgedUnordered.insert_unique hashF eqK keyOf vU nowU d =
            (AgedUnordered.maybe_rehash hashF keyOf 1 d, false, a) := by
          rw [AgedUnordered.insert_unique, hf]
        rw [hres]
        have hamem : a ∈ AgedUnordered.joinAll d :=
          hperm1.mem_iff.mp (mem_bucketGet (List.mem_of_find?_eq_some hf))
        have hpa : eqK (keyOf vU) (keyOf a.value) = true := by
          simpa using List.find?_some hf
        exact ⟨maybe_rehash_list hashF keyOf 1 d,
          maybe_rehash_whens hashF keyOf 1 d,
          maybe_rehash_nextId hashF keyOf 1 d, hperm1, rfl, hamem, hpa⟩

/-- Witness for C2: re-inserting the key 1 into the ordered set holding
1 and 2, and the key 7 into the unordered multiset holding 7 twice,
changes nothing and reports `false` on the unique variant. -/
theorem insert_existing_key_noop_witness :
    (AgedOrdered.insert_unique ltB idF 1 9 setOneTwo).1 = setOneTwo ∧
    (AgedOrdered.insert_unique ltB idF 1 9 setOneTwo).2.1 = false ∧
    (AgedUnordered.insert_unique idF eqB idF 7 9 multiSevenSeven).1.list =
      multiSevenSeven.list ∧
    (AgedUnordered.insert_unique idF eqB idF 7 9
      multiSevenSeven).1.nextId = multiSevenSeven.nextId ∧
    (AgedUnordered.joinAll (AgedUnordered.insert_unique idF eqB idF 7 9
      multiSevenSeven).1).Perm (AgedUnordered.joinAll multiSevenSeven) := by
  have h := insert_existing_key_noop ltB idF eqB idF setOneTwo
    multiSevenSeven 1 7 9 9 ⟨1, 7⟩
    ⟨⟨0, 1⟩, by decide, by decide⟩ (by decide) (by decide) (by decide)
    (by decide)
  exact ⟨h.1.1, h.1.2.1, h.2.1, h.2.2.2.1, h.2.2.2.2.1⟩

/-- The associative index of the ordered container is weakly sorted by
the comparator: no later node's key is less than an earlier one's. -/
def SortedLE (lt : K → K → Bool) (keyOf : V → K)
    (l : List (Elem V)) : Prop :=
  List.Pairwise (fun a b => lt (keyOf b.value) (keyOf a.value) = false) l

section MultiOrder

variable {K V : Type} [DecidableEq V]
variable (lt : K → K → Bool) (keyOf : V → K)

theorem lt_asym (hirr : ∀ a, lt a a = false)
    (htrans : ∀ a b c, lt a b = true → lt b c = true → lt a c = true)
    (a b : K) (h : lt a b = true) : lt b a = false := by
  cases hba : lt b a with
  | false => rfl
  | true => exact absurd (htrans b a b hba h) (by simp [hirr b])

theorem insertUB_sorted (hirr : ∀ a, lt a a = false)
    (htrans : ∀ a b c, lt a b = true → lt b c = true → lt a c = true)
    {l : List (Elem V)} (p : Elem V) (k : K)
    (hk : keyOf p.value = k) (hs : SortedLE lt keyOf l) :
    SortedLE lt keyOf (insertUB lt keyOf k p l) := by
  induction l with
  | nil =>
      rw [insertUB]
      refine List.pairwise_cons.mpr ⟨?_, List.Pairwise.nil⟩
      intro y hy
      cases hy
  | cons x xs ih =>
      rw [SortedLE, List.pairwise_cons] at hs
      rw [insertUB]
      split
      · rename_i hlt
        refine List.pairwise_cons.mpr ⟨?_, List.pairwise_cons.mpr hs⟩
        intro y hy
        rw [hk]
        rcases List.mem_cons.mp hy with rfl | hyxs
        · exact lt_asym lt hirr htrans _ _ hlt
        · cases hyk : lt (keyOf y.value) k with
          | false => rfl
          | true =>
              exact absurd (htrans _ _ _ hyk hlt) (by simp [hs.1 y hyxs])
      · rename_i hnlt
        refine List.pairwise_cons.mpr ⟨?_, ih hs.2⟩
        intro y hy
        rcases List.mem_cons.mp
            ((insertUB_perm lt keyOf k p xs).mem_iff.mp hy) with h | h
        · subst h
          rw [hk]
          simpa using hnlt
        · exact hs.1 y h

theorem filter_insertUB_equiv
    (hntrans : ∀ a b c, lt a b = false → lt b c = false → lt a c = false)
    {l : List (Elem V)} (p : Elem V) (k k' : K)
    (hk : keyOf p.value = k) (hs : SortedLE lt keyOf l)
    (hkk' : equivK lt k' k = true) :
    (insertUB lt keyOf k p l).filter
        (fun e => equivK lt k' (keyOf e.value)) =
      l.filter (fun e => equivK lt k' (keyOf e.value)) ++ [p] := by
  have hk'p : equivK lt k' (keyOf p.value) = true := by rw [hk]; exact hkk'
  rw [equivK, Bool.and_eq_true, Bool.not_eq_true', Bool.not_eq_true']
    at hkk'
  induction l with
  | nil => simp [insertUB, List.filter_cons, hk'p]
  | cons x xs ih =>
      rw [SortedLE, List.pairwise_cons] at hs
      rw [insertUB]
      split
      · rename_i hlt
        have hnone : ∀ y ∈ x :: xs,
            equivK lt k' (keyOf y.value) = false := by
          intro y hy
          have hky : lt k (keyOf y.value) = true := by
            rcases List.mem_cons.mp hy with rfl | hyxs
            · exact hlt
            · cases hky : lt k (keyOf y.value) with
              | true => rfl
              | false =>
                  exact absurd
                    (hntrans _ _ _ hky (hs.1 y hyxs)) (by simp [hlt])
          have hk'y : lt k' (keyOf y.value) = true := by
            cases hk'y : lt k' (keyOf y.value) with
            | true => rfl
            | false =>
                exact absurd (hntrans _ _ _ hkk'.2 hk'y)
                  (by simp [hky])
          rw [equivK]
          simp [hk'y]
        have h1 : (x :: xs).filter
            (fun e => equivK lt k' (keyOf e.value)) = [] :=
          List.filter_eq_nil_iff.mpr
            (fun y hy => by simp [hnone y hy])
        simp [List.filter_cons, hk'p, h1]
      · rename_i hnlt
        cases hx : equivK lt k' (keyOf x.value) with
        | true => simp [List.filter_cons, hx, ih hs.2]
        | false => simp [List.filter_cons, hx, ih hs.2]

theorem filter_insertUB_nequiv {l : List (Elem V)} (p : Elem V) (k k' : K)
    (hk : keyOf p.value = k)
    (hkk' : equivK lt k' k = false) :
    (insertUB lt keyOf k p l).filter
        (fun e => equivK lt k' (keyOf e.value)) =
      l.filter (fun e => equivK lt k' (keyOf e.value)) := by
  have hk'p : equivK lt k' (keyOf p.value) = false := by rw [hk]; exact hkk'
  induction l with
  | nil => simp [insertUB, List.filter_cons, hk'p]
  | cons x xs ih =>
      rw [insertUB]
      split
      · simp [List.filter_cons, hk'p]
      · cases hx : equivK lt k' (keyOf x.value) with
        | true => simp [List.filter_cons, hx, ih]
        | false => simp [List.filter_cons, hx, ih]

/-- All multi inserts of the values `vs` (each with the `now` it
observes), from an empty ordered container. -/
def multiRun (lt : K → K → Bool) (keyOf : V → K) (vs : List (V × Nat)) :
    AgedOrdered V :=
  vs.foldl (fun st pr => (AgedOrdered.insert_multi lt keyOf pr.1 pr.2 st).1)
    (AgedOrdered.empty V)

theorem multiRun_props (hirr : ∀ a, lt a a = false)
    (htrans : ∀ a b c, lt a b = true → lt b c = true → lt a c = true)
    (hntrans : ∀ a b c, lt a b = false → lt b c = false → lt a c = false)
    (vs : List (V × Nat)) :
    SortedLE lt keyOf (multiRun lt keyOf vs).cont ∧
    ∀ k', (multiRun lt keyOf vs).cont.filter
        (fun e => equivK lt k' (keyOf e.value)) =
      (multiRun lt keyOf vs).list.filter
        (fun e => equivK lt k' (keyOf e.value)) := by
  rw [multiRun]
  have hstep : ∀ (st : AgedOrdered V) (pr : V × Nat),
      (SortedLE lt keyOf st.cont ∧
        ∀ k', st.cont.filter (fun e => equivK lt k' (keyOf e.value)) =
          st.list.filter (fun e => equivK lt k' (keyOf e.value))) →
      (SortedLE lt keyOf
          ((AgedOrdered.insert_multi lt keyOf pr.1 pr.2 st).1).cont ∧
        ∀ k', ((AgedOrdered.insert_multi lt keyOf
              pr.1 pr.2 st).1).cont.filter
            (fun e => equivK lt k' (keyOf e.value)) =
          ((AgedOrdered.insert_multi lt keyOf
              pr.1 pr.2 st).1).list.filter
            (fun e => equivK lt k' (keyOf e.value))) := by
    intro st pr hP
    obtain ⟨hsort, hfilt⟩ := hP
    simp only [AgedOrdered.insert_multi]
    constructor
    · exact insertUB_sorted lt keyOf hirr htrans _ _ rfl hsort
    · intro k'
      cases hkk' : equivK lt k' (keyOf pr.1) with
      | true =>
          rw [filter_insertUB_equiv lt keyOf hntrans
              (⟨st.nextId, pr.1⟩ : Elem V) (keyOf pr.1) k' rfl hsort hkk',
            List.filter_append, hfilt k']
          have h2 : ([(⟨st.nextId, pr.1⟩ : Elem V)]).filter
              (fun e => equivK lt k' (keyOf e.value)) =
              [(⟨st.nextId, pr.1⟩ : Elem V)] := by
            simp [List.filter_cons, hkk']
          rw [h2]
      | false =>
          rw [filter_insertUB_nequiv lt keyOf
              (⟨st.nextId, pr.1⟩ : Elem V) (keyOf pr.1) k' rfl hkk',
            List.filter_append, hfilt k']
          have h2 : ([(⟨st.nextId, pr.1⟩ : Elem V)]).filter
              (fun e => equivK lt k' (keyOf e.value)) = [] := by
            simp [List.filter_cons, hkk']
          rw [h2, List.append_nil]
  exact foldl_preserve _ _ hstep vs (AgedOrdered.empty V)
    ⟨List.Pairwise.nil, fun k' => rfl⟩

end MultiOrder

/-- Spec scenario S2: the ordered multimap receiving (A = 0, x = 100) at
t = 1, (B = 1, y = 101) at t = 2, (A = 0, z = 102) at t = 3. -/
def scenarioS2 : AgedOrdered (Nat × Nat) :=
  multiRun ltB fstN [((0, 100), 1), ((1, 101), 2), ((0, 102), 3)]

/-- C5: the ordered multi `insert` appends the new node to the temporal
tail and links it in the tree at `upper_bound` of its key, so after any
sequence of insertions (comparator a strict weak order) each
equivalent-key run appears in associative traversal in insertion order —
the order the same nodes have in the temporal list.  Concretely
(scenario S2), inserting (A,x), (B,y), (A,z) yields associative
traversal (A,x), (A,z), (B,y) and temporal traversal (A,x), (B,y),
(A,z). -/
theorem multi_insert_insertion_order {K V : Type} [DecidableEq V]
    (lt : K → K → Bool) (keyOf : V → K)
    (hirr : ∀ a, lt a a = false)
    (htrans : ∀ a b c, lt a b = true → lt b c = true → lt a c = true)
    (hntrans : ∀ a b c, lt a b = false → lt b c = false → lt a c = false)
    (vs : List (V × Nat)) (c : AgedOrdered V) (v : V) (now : Nat) :
    ((AgedOrdered.insert_multi lt keyOf v now c).1.list =
      c.list ++ [⟨c.nextId, v⟩]) ∧
    (∀ k', (multiRun lt keyOf vs).cont.filter
        (fun e => equivK lt k' (keyOf e.value)) =
      (multiRun lt keyOf vs).list.filter
        (fun e => equivK lt k' (keyOf e.value))) ∧
    scenarioS2.cont.map Elem.value = [(0, 100), (0, 102), (1, 101)] ∧
    scenarioS2.list.map Elem.value = [(0, 100), (1, 101), (0, 102)] := by
  refine ⟨rfl, (multiRun_props lt keyOf hirr htrans hntrans vs).2,
    by decide, by decide⟩

/-- Witness for C5: the insertion-order statement applied to the S2
inputs, with the strict-weak-order obligations discharged for
`std::less<int>`, evaluated at the key A = 0: both traversals list the
A-run as (A,x), (A,z). -/
theorem multi_insert_insertion_order_witness :
    scenarioS2.cont.filter (fun e => equivK ltB 0 (fstN e.value)) =
      scenarioS2.list.filter (fun e => equivK ltB 0 (fstN e.value)) ∧
    (AgedOrdered.insert_multi ltB fstN (0, 100) 1
      (AgedOrdered.empty (Nat × Nat))).1.list = [] ++ [⟨0, (0, 100)⟩] := by
  have h := multi_insert_insertion_order ltB fstN
    (by intro a; simp [ltB])
    (by intro a b c h1 h2; simp only [ltB, decide_eq_true_eq] at *; omega)
    (by intro a b c h1 h2; simp only [ltB, decide_eq_false_iff_not,
      decide_eq_true_eq] at *; omega)
    [((0, 100), 1), ((1, 101), 2), ((0, 102), 3)]
    (AgedOrdered.empty (Nat × Nat)) (0, 100) 1
  exact ⟨h.2.1 0, h.1⟩

section CopyLemmas

variable {K V : Type} [DecidableEq V]
variable (lt : K → K → Bool) (keyOf : V → K)

theorem tagFrom_map_value (i : Nat) (vs : List V) :
    (tagFrom i vs).map (Elem.value (V := V)) = vs := by
  induction vs generalizing i with
  | nil => rfl
  | cons v vs ih => simp [tagFrom, ih]

theorem tagFrom_mem_id {i : Nat} {vs : List V} {e : Elem V}
    (h : e ∈ tagFrom i vs) : i ≤ e.id ∧ e.id < i + vs.length := by
  induction vs generalizing i with
  | nil => cases h
  | cons v vs ih =>
      rw [tagFrom] at h
      rcases List.mem_cons.mp h with rfl | h
      · simp
      · have := ih h
        simp only [List.length_cons]
        omega

theorem insertUB_append {l : List (Elem V)} (p : Elem V) (k : K)
    (h : ∀ x ∈ l, lt k (keyOf x.value) = false) :
    insertUB lt keyOf k p l = l ++ [p] := by
  induction l with
  | nil => rfl
  | cons x xs ih =>
      rw [insertUB, if_neg (by simp [h x (by simp)])]
      rw [ih (fun y hy => h y (by simp [hy]))]
      rfl

theorem fold_insert_unique_fresh
    (hirr : ∀ a, lt a a = false)
    (htrans : ∀ a b c, lt a b = true → lt b c = true → lt a c = true) :
    ∀ (vs : List V) (es : List (Elem V)) (w : Nat → Nat) (n0 now : Nat),
      (∀ e ∈ es, ∀ v ∈ vs, lt (keyOf e.value) (keyOf v) = true) →
      List.Pairwise (fun a b => lt (keyOf a) (keyOf b) = true) vs →
      (vs.foldl (fun st v => (AgedOrdered.insert_unique lt keyOf
          v now st).1) ⟨es, es, w, n0⟩).cont = es ++ tagFrom n0 vs ∧
      (vs.foldl (fun st v => (AgedOrdered.insert_unique lt keyOf
          v now st).1) ⟨es, es, w, n0⟩).list = es ++ tagFrom n0 vs ∧
      (vs.foldl (fun st v => (AgedOrdered.insert_unique lt keyOf
          v now st).1) ⟨es, es, w, n0⟩).nextId = n0 + vs.length ∧
      (∀ j, j < n0 →
        (vs.foldl (fun st v => (AgedOrdered.insert_unique lt keyOf
          v now st).1) ⟨es, es, w, n0⟩).whens j = w j) ∧
      (∀ i, i < vs.length →
        (vs.foldl (fun st v => (AgedOrdered.insert_unique lt keyOf
          v now st).1) ⟨es, es, w, n0⟩).whens (n0 + i) = now) := by
  intro vs
  induction vs with
  | nil =>
      intro es w n0 now _ _
      refine ⟨by simp [tagFrom], by simp [tagFrom], by simp, ?_, ?_⟩
      · intro j _; rfl
      · intro i hi; cases hi
  | cons v vs ih =>
      intro es w n0 now hcross hsorted
      have hf : es.find?
          (fun e => equivK lt (keyOf v) (keyOf e.value)) = none := by
        refine List.find?_eq_none.mpr ?_
        intro e he
        have h1 := hcross e he v (by simp)
        simp [equivK, h1]
      have hstep : (AgedOrdered.insert_unique lt keyOf v now
          (⟨es, es, w, n0⟩ : AgedOrdered V)).1 =
          ⟨es ++ [⟨n0, v⟩], es ++ [⟨n0, v⟩],
            (⟨es, es, w, n0⟩ : AgedOrdered V).stamp n0 now, n0 + 1⟩ := by
        rw [AgedOrdered.insert_unique]
        dsimp only
        rw [hf]
        dsimp only
        rw [insertUB_append lt keyOf _ _ ?_]
        intro x hx
        exact lt_asym lt hirr htrans _ _ (hcross x hx v (by simp))
      rw [List.foldl_cons, hstep]
      rw [List.pairwise_cons] at hsorted
      have hcross' : ∀ e ∈ es ++ [(⟨n0, v⟩ : Elem V)], ∀ v' ∈ vs,
          lt (keyOf e.value) (keyOf v') = true := by
        intro e he v' hv'
        rcases List.mem_append.mp he with h | h
        · exact hcross e h v' (by simp [hv'])
        · rcases List.mem_singleton.mp h with rfl
          exact hsorted.1 v' hv'
      have := ih (es ++ [⟨n0, v⟩])
        ((⟨es, es, w, n0⟩ : AgedOrdered V).stamp n0 now) (n0 + 1) now
        hcross' hsorted.2
      obtain ⟨h1, h2, h3, h4, h5⟩ := this
      refine ⟨?_, ?_, ?_, ?_, ?_⟩
      · rw [h1, tagFrom, List.append_assoc]
        rfl
      · rw [h2, tagFrom, List.append_assoc]
        rfl
      · rw [h3, List.length_cons]
        omega
      · intro j hj
        have h := h4 j (by omega)
        simp only [AgedOrdered.stamp] at h
        rw [h]
        simp only [if_neg (by omega : ¬ j = n0)]
      · intro i hi
        cases i with
        | zero =>
            have h := h4 n0 (by omega)
            simp only [AgedOrdered.stamp] at h
            simp only [Nat.add_zero]
            rw [h]
            simp
        | succ i' =>
            have h := h5 i' (by rw [List.length_cons] at hi; omega)
            have heq : n0 + (i' + 1) = n0 + 1 + i' := by omega
            rw [heq]
            exact h

/-- The insertion loop of the hash container's copy construction /
range insert: checked unique inserts, one by one, each observing the
same `clock().now()`. -/
def copyFoldU (hashF : K → Nat) (eqK : K → K → Bool) (keyOf : V → K)
    (vs : List V) (now : Nat) (d : AgedUnordered V) : AgedUnordered V :=
  vs.foldl (fun st v =>
    (AgedUnordered.insert_unique hashF eqK keyOf v now st).1) d

theorem fold_insert_uniqueU_fresh (hashF : K → Nat) (eqK : K → K → Bool) :
    ∀ (vs : List V) (d : AgedUnordered V) (now : Nat),
      (∀ e ∈ AgedUnordered.joinAll d, ∀ v ∈ vs,
        eqK (keyOf v) (keyOf e.value) = false) →
      List.Pairwise (fun a b => eqK (keyOf b) (keyOf a) = false) vs →
      (AgedUnordered.joinAll d).Perm d.list →
      (copyFoldU hashF eqK keyOf vs now d).list =
          d.list ++ tagFrom d.nextId vs ∧
      (copyFoldU hashF eqK keyOf vs now d).nextId =
          d.nextId + vs.length ∧
      (AgedUnordered.joinAll (copyFoldU hashF eqK keyOf vs now d)).Perm
          (copyFoldU hashF eqK keyOf vs now d).list ∧
      (∀ j, j < d.nextId →
        (copyFoldU hashF eqK keyOf vs now d).whens j = d.whens j) ∧
      (∀ i, i < vs.length →
        (copyFoldU hashF eqK keyOf vs now d).whens (d.nextId + i) =
          now) := by
  intro vs
  induction vs with
  | nil =>
      intro d now _ _ hjl
      refine ⟨by simp [copyFoldU, tagFrom], by simp [copyFoldU], ?_, ?_, ?_⟩
      · exact hjl
      · intro j _; rfl
      · intro i hi; cases hi
  | cons v vs ih =>
      intro d now hcross hsorted hjl
      rw [List.pairwise_cons] at hsorted
      have hperm1 := maybe_rehash_flatten_perm hashF keyOf 1 d
      have hpos := maybe_rehash_buckets_pos hashF keyOf 1 (by omega) d
      have hf : (AgedUnordered.bucketGet
          (AgedUnordered.maybe_rehash hashF keyOf 1 d)
          (AgedUnordered.bucketIdxK hashF
            (AgedUnordered.maybe_rehash hashF keyOf 1 d).buckets.length
            (keyOf v))).find?
          (fun e => eqK (keyOf v) (keyOf e.value)) = none := by
        refine List.find?_eq_none.mpr ?_
        intro x hx
        have hxj : x ∈ AgedUnordered.joinAll d :=
          hperm1.mem_iff.mp (mem_bucketGet hx)
        simp [hcross x hxj v (by simp)]
      have hstep : (AgedUnordered.insert_unique hashF eqK keyOf v now d).1 =
          ⟨(AgedUnordered.maybe_rehash hashF keyOf 1 d).buckets.set
              (AgedUnordered.bucketIdxK hashF
                (AgedUnordered.maybe_rehash hashF keyOf 1
                  d).buckets.length (keyOf v))
              (AgedUnordered.bucketInsert eqK keyOf
                ⟨(AgedUnordered.maybe_rehash hashF keyOf 1 d).nextId, v⟩
                (AgedUnordered.bucketGet
                  (AgedUnordered.maybe_rehash hashF keyOf 1 d)
                  (AgedUnordered.bucketIdxK hashF
                    (AgedUnordered.maybe_rehash hashF keyOf 1
                      d).buckets.length (keyOf v)))),
            (AgedUnordered.maybe_rehash hashF keyOf 1 d).list ++
              [⟨(AgedUnordered.maybe_rehash hashF keyOf 1 d).nextId, v⟩],
            (AgedUnordered.maybe_rehash hashF keyOf 1 d).stamp
              (AgedUnordered.maybe_rehash hashF keyOf 1 d).nextId now,
            (AgedUnordered.maybe_rehash hashF keyOf 1 d).nextId + 1⟩ := by
        rw [AgedUnordered.insert_unique]
        dsimp only
        rw [hf]
      have hperm2 : (AgedUnordered.joinAll
          (AgedUnordered.insert_unique hashF eqK keyOf v now d).1).Perm
          ((⟨(AgedUnordered.maybe_rehash hashF keyOf 1 d).nextId, v⟩ :
              Elem V) :: AgedUnordered.joinAll d) := by
        rw [hstep]
        refine (flatten_set_perm _ _ _ _
          (Nat.mod_lt _ hpos) (bucketInsert_perm eqK keyOf _ _)).trans ?_
        exact List.Perm.cons _ hperm1
      have hlist2 : (AgedUnordered.insert_unique hashF eqK keyOf
          v now d).1.list = d.list ++
            [⟨(AgedUnordered.maybe_rehash hashF keyOf 1 d).nextId, v⟩] := by
        rw [hstep]
        dsimp only
        rw [maybe_rehash_list]
      have hnext2 : (AgedUnordered.insert_unique hashF eqK keyOf
          v now d).1.nextId = d.nextId + 1 := by
        rw [hstep]
        dsimp only
        rw [maybe_rehash_nextId]
      have hjl2 : (AgedUnordered.joinAll
          (AgedUnordered.insert_unique hashF eqK keyOf v now d).1).Perm
          (AgedUnordered.insert_unique hashF eqK keyOf v now d).1.list := by
        rw [hlist2]
        refine hperm2.trans ?_
        exact (hjl.cons _).trans (List.perm_append_singleton _ _).symm
      have hcross2 : ∀ e ∈ AgedUnordered.joinAll
          (AgedUnordered.insert_unique hashF eqK keyOf v now d).1,
          ∀ v' ∈ vs, eqK (keyOf v') (keyOf e.value) = false := by
        intro e he v' hv'
        rcases List.mem_cons.mp (hperm2.mem_iff.mp he) with rfl | hmem
        · exact hsorted.1 v' hv'
        · exact hcross e hmem v' (by simp [hv'])
      have hrec := ih (AgedUnordered.insert_unique hashF eqK keyOf
        v now d).1 now hcross2 hsorted.2 hjl2
      obtain ⟨h1, h2, h3, h4, h5⟩ := hrec
      have hfold : copyFoldU hashF eqK keyOf (v :: vs) now d =
          copyFoldU hashF eqK keyOf vs now
            (AgedUnordered.insert_unique hashF eqK keyOf v now d).1 := by
        rw [copyFoldU, copyFoldU, List.foldl_cons]
      have hwhens2 : ∀ j, (AgedUnordered.insert_unique hashF eqK keyOf
          v now d).1.whens j =
            if j = d.nextId then now else d.whens j := by
        intro j
        rw [hstep]
        dsimp only
        rw [AgedUnordered.stamp]
        rw [maybe_rehash_whens, maybe_rehash_nextId]
      refine ⟨?_, ?_, ?_, ?_, ?_⟩
      · rw [hfold, h1, hlist2, hnext2, maybe_rehash_nextId, tagFrom,
          List.append_assoc]
        rfl
      · rw [hfold, h2, hnext2, List.length_cons]
        omega
      · rw [hfold]
        exact h3
      · intro j hj
        rw [hfold, h4 j (by omega), hwhens2 j,
          if_neg (by omega : ¬ j = d.nextId)]
      · intro i hi
        cases i with
        | zero =>
            have h := h4 d.nextId (by omega)
            rw [hwhens2] at h
            simp only [if_pos rfl] at h
            simp only [Nat.add_zero]
            rw [hfold]
            exact h
        | succ i' =>
            have h := h5 i' (by rw [List.length_cons] at hi; omega)
            rw [hnext2] at h
            have heq : d.nextId + (i' + 1) = d.nextId + 1 + i' := by omega
            rw [hfold, heq]
            exact h

end CopyLemmas

/-- C10: copy construction inserts each element of the source afresh
through `new_element`, which stamps `clock().now()` observed during the
copy; the copy agrees with the source on the values (keys and mapped
parts, in the same traversal order up to hashing), but every node of the
copy carries the copy-time timestamp `now`, whatever the source's `when`
map was.  Stated for both the ordered container (source associative
traversal strictly ascending, as unique containers are) and the hash
container (source keys pairwise non-equivalent). -/
theorem copy_restamps_when {K V : Type} [DecidableEq V]
    (lt : K → K → Bool) (keyOf : V → K)
    (hashF : K → Nat) (eqK : K → K → Bool)
    (hirr : ∀ a, lt a a = false)
    (htrans : ∀ a b c, lt a b = true → lt b c = true → lt a c = true)
    (src : AgedOrdered V) (srcU : AgedUnordered V) (now nowU : Nat)
    (hsrc : List.Pairwise
      (fun a b => lt (keyOf a.value) (keyOf b.value) = true) src.cont)
    (hsrcU : List.Pairwise
      (fun a b => eqK (keyOf b.value) (keyOf a.value) = false)
      (AgedUnordered.joinAll srcU)) :
    ((AgedOrdered.copyOf lt keyOf src now).cont.map
        (fun e => e.value) = src.cont.map (fun e => e.value) ∧
      (AgedOrdered.copyOf lt keyOf src now).list =
        (AgedOrdered.copyOf lt keyOf src now).cont ∧
      ∀ e ∈ (AgedOrdered.copyOf lt keyOf src now).cont,
        (AgedOrdered.copyOf lt keyOf src now).whens e.id = now) ∧
    ((AgedUnordered.copyOf hashF eqK keyOf srcU nowU).list.map
        (fun e => e.value) =
        (AgedUnordered.joinAll srcU).map (fun e => e.value) ∧
      (AgedUnordered.joinAll
          (AgedUnordered.copyOf hashF eqK keyOf srcU nowU)).Perm
        (AgedUnordered.copyOf hashF eqK keyOf srcU nowU).list ∧
      ∀ e ∈ (AgedUnordered.copyOf hashF eqK keyOf srcU nowU).list,
        (AgedUnordered.copyOf hashF eqK keyOf srcU nowU).whens e.id =
          nowU) := by
  constructor
  · have hvs : List.Pairwise (fun a b =>
        lt (keyOf a) (keyOf b) = true)
        (src.cont.map (fun e => e.value)) := by
      rw [List.pairwise_map]
      exact hsrc
    have h := fold_insert_unique_fresh lt keyOf hirr htrans
      (src.cont.map (fun e => e.value)) [] (fun _ => 0) 0 now
      (by intro e he; cases he) hvs
    obtain ⟨h1, h2, h3, h4, h5⟩ := h
    have hco : AgedOrdered.copyOf lt keyOf src now =
        (src.cont.map (fun e => e.value)).foldl
          (fun st v => (AgedOrdered.insert_unique lt keyOf
            v now st).1) ⟨[], [], fun _ => 0, 0⟩ := rfl
    rw [hco]
    rw [List.nil_append] at h1 h2
    refine ⟨?_, ?_, ?_⟩
    · rw [h1, tagFrom_map_value]
    · rw [h1, h2]
    · intro e he
      rw [h1] at he
      have hid := tagFrom_mem_id he
      have h := h5 e.id (by simpa using hid.2)
      simpa using h
  · have hvs : List.Pairwise (fun a b =>
        eqK (keyOf b) (keyOf a) = false)
        ((AgedUnordered.joinAll srcU).map (fun e => e.value)) := by
      rw [List.pairwise_map]
      exact hsrcU
    have hjl0 : (AgedUnordered.joinAll
        (AgedUnordered.empty V)).Perm
        (AgedUnordered.empty V).list := by
      simp [AgedUnordered.joinAll, AgedUnordered.empty]
    have h := fold_insert_uniqueU_fresh keyOf hashF eqK
      ((AgedUnordered.joinAll srcU).map (fun e => e.value))
      (AgedUnordered.empty V) nowU
      (by intro e he; simp [AgedUnordered.joinAll,
            AgedUnordered.empty] at he) hvs hjl0
    obtain ⟨h1, h2, h3, h4, h5⟩ := h
    have hco : AgedUnordered.copyOf hashF eqK keyOf srcU nowU =
        copyFoldU hashF eqK keyOf
          ((AgedUnordered.joinAll srcU).map (fun e => e.value)) nowU
          (AgedUnordered.empty V) := rfl
    rw [hco]
    have hl0 : (AgedUnordered.empty V).list = ([] : List (Elem V)) := rfl
    rw [hl0, List.nil_append] at h1
    refine ⟨?_, h3, ?_⟩
    · rw [h1, tagFrom_map_value]
    · intro e he
      rw [h1] at he
      have hid := tagFrom_mem_id he
      have h := h5 e.id (by simpa [AgedUnordered.empty] using hid.2)
      simpa [AgedUnordered.empty] using h

/-- The ordered source of the C10 witness: two nodes holding 1 and 2,
both stamped 99 by the source's clock. -/
def srcC10 : AgedOrdered Nat :=
  ⟨[⟨0, 1⟩, ⟨1, 2⟩], [⟨0, 1⟩, ⟨1, 2⟩], fun _ => 99, 2⟩

/-- The unordered source of the C10 witness: nodes 1 and 2 in separate
buckets, both stamped 99. -/
def srcC10U : AgedUnordered Nat :=
  ⟨[[], [⟨0, 1⟩], [⟨1, 2⟩]], [⟨0, 1⟩, ⟨1, 2⟩], fun _ => 99, 2⟩

/-- Witness for C10: copying the two-element sources whose nodes are
stamped 99 at clock time 5 reproduces the values but stamps every node
of the copy with 5. -/
theorem copy_restamps_when_witness :
    ((AgedOrdered.copyOf (fun a b : Nat => decide (a < b)) (fun v => v)
        srcC10 5).cont.map (fun e => e.value) =
        srcC10.cont.map (fun e => e.value) ∧
      (AgedOrdered.copyOf (fun a b : Nat => decide (a < b)) (fun v => v)
        srcC10 5).list =
        (AgedOrdered.copyOf (fun a b : Nat => decide (a < b)) (fun v => v)
          srcC10 5).cont ∧
      ∀ e ∈ (AgedOrdered.copyOf (fun a b : Nat => decide (a < b)) (fun v => v)
          srcC10 5).cont,
        (AgedOrdered.copyOf (fun a b : Nat => decide (a < b)) (fun v => v)
          srcC10 5).whens e.id = 5) ∧
    ((AgedUnordered.copyOf (fun k : Nat => k) (fun a b : Nat => a == b)
        (fun v => v) srcC10U 7).list.map (fun e => e.value) =
        (AgedUnordered.joinAll srcC10U).map (fun e => e.value) ∧
      (AgedUnordered.joinAll
          (AgedUnordered.copyOf (fun k : Nat => k)
            (fun a b : Nat => a == b) (fun v => v) srcC10U 7)).Perm
        (AgedUnordered.copyOf (fun k : Nat => k)
          (fun a b : Nat => a == b) (fun v => v) srcC10U 7).list ∧
      ∀ e ∈ (AgedUnordered.copyOf (fun k : Nat => k)
          (fun a b : Nat => a == b) (fun v => v) srcC10U 7).list,
        (AgedUnordered.copyOf (fun k : Nat => k)
          (fun a b : Nat => a == b) (fun v => v) srcC10U 7).whens e.id =
          7) := by
  refine copy_restamps_when (fun a b : Nat => decide (a < b)) (fun v => v)
    (fun k : Nat => k) (fun a b : Nat => a == b) ?_ ?_
    srcC10 srcC10U 5 7 ?_ ?_
  · intro a; simp
  · intro a b c h1 h2
    simp only [decide_eq_true_eq] at h1 h2 ⊢
    omega
  · decide
  · decide

end Claims

end BeastAged
